import Mathlib

/-!
# graph-tool inference loops: a shallow embedding

Verification development for `src/graph/inference/loops/mcmc_loop.hh`,
`graph_blockmodel_mcmc.hh`, `graph_blockmodel_multicanonical.hh`,
`graph_state.hh` and `graph_inference.cc`.

Conventions of the embedding

* `double` is `Dbl`: a rational number, one of the two infinities, or NaN.
  Comparisons and arithmetic follow IEEE-754 on the special values
  (every comparison with NaN is false, `inf * 0` and `inf - inf` are NaN).
  Rounding and the sign of zero are not modelled.
* `size_t` counters are naturals reduced modulo `2^64` after every addition.
* The random generator is an abstract type `G`; every library routine that
  consumes randomness takes a generator and returns the advanced generator.
* Stateful code is written in state-passing style.  The sweeps also record
  the sequence of calls made on the model state (`Call`), so that statements
  of the form "the sweep never calls `perform_move`" can be expressed.
-/

namespace GraphTool

/-! ## Doubles -/

/-- Values of the C++ type `double`: finite (rational), `+inf`, `-inf`, NaN. -/
inductive Dbl where
  | fin (q : ℚ)
  | pinf
  | ninf
  | nan
  deriving DecidableEq, Repr

namespace Dbl

instance : OfNat Dbl 0 := ⟨fin 0⟩
instance : OfNat Dbl 1 := ⟨fin 1⟩

/-- The test `std::isinf`. -/
def isinf : Dbl → Bool
  | pinf => true
  | ninf => true
  | _ => false

/-- Unary minus. -/
def neg : Dbl → Dbl
  | fin q => fin (-q)
  | pinf => ninf
  | ninf => pinf
  | nan => nan

/-- Product of two doubles. -/
def mul : Dbl → Dbl → Dbl
  | nan, _ => nan
  | _, nan => nan
  | fin a, fin b => fin (a * b)
  | fin a, pinf => if a = 0 then nan else if 0 < a then pinf else ninf
  | fin a, ninf => if a = 0 then nan else if 0 < a then ninf else pinf
  | pinf, fin b => if b = 0 then nan else if 0 < b then pinf else ninf
  | ninf, fin b => if b = 0 then nan else if 0 < b then ninf else pinf
  | pinf, pinf => pinf
  | pinf, ninf => ninf
  | ninf, pinf => ninf
  | ninf, ninf => pinf

/-- Sum of two doubles. -/
def add : Dbl → Dbl → Dbl
  | nan, _ => nan
  | _, nan => nan
  | fin a, fin b => fin (a + b)
  | fin _, pinf => pinf
  | fin _, ninf => ninf
  | pinf, fin _ => pinf
  | ninf, fin _ => ninf
  | pinf, pinf => pinf
  | ninf, ninf => ninf
  | pinf, ninf => nan
  | ninf, pinf => nan

/-- Difference of two doubles. -/
def sub (x y : Dbl) : Dbl := add x (neg y)

/-- The comparison `x < y`; false as soon as one side is NaN. -/
def lt : Dbl → Dbl → Bool
  | nan, _ => false
  | _, nan => false
  | fin a, fin b => decide (a < b)
  | fin _, pinf => true
  | fin _, ninf => false
  | pinf, _ => false
  | ninf, fin _ => true
  | ninf, pinf => true
  | ninf, ninf => false

/-- The comparison `x > y`. -/
def gt (x y : Dbl) : Bool := lt y x

/-- The comparison `x <= y`; false as soon as one side is NaN. -/
def le : Dbl → Dbl → Bool
  | nan, _ => false
  | _, nan => false
  | fin a, fin b => decide (a ≤ b)
  | fin _, pinf => true
  | fin _, ninf => false
  | pinf, pinf => true
  | pinf, _ => false
  | ninf, _ => true

/-- The comparison `x != y`; true as soon as one side is NaN. -/
def ne : Dbl → Dbl → Bool
  | nan, _ => true
  | _, nan => true
  | x, y => decide (x ≠ y)

/-- The constant `numeric_limits<double>::max()`. -/
def max : Dbl := fin ((2 ^ 53 - 1) * 2 ^ 971)

/-- The library function `exp` on doubles, given its values `expq` on finite
arguments; the special values follow Annex F of the C standard. -/
def exp (expq : ℚ → ℚ) : Dbl → Dbl
  | fin q => fin (expq q)
  | pinf => pinf
  | ninf => fin 0
  | nan => nan

end Dbl

/-! ## Library routines that are not part of the repository -/

/-- The library routines used by the loops: `exp` on finite doubles, and the
three ways in which the loops consume the random generator. -/
structure Lib (G : Type) where
  /-- Values of `exp` on finite doubles. -/
  expq : ℚ → ℚ
  /-- One draw of `std::uniform_real_distribution<>` (a double in `[0,1)`). -/
  uniform_real : G → Dbl × G
  /-- The routine `std::shuffle(vlist.begin(), vlist.end(), rng)`. -/
  shuffle : List Nat → G → List Nat × G
  /-- The routine `uniform_sample(vlist, rng)`. -/
  uniform_sample : List Nat → G → Nat × G

/-! ## `metropolis_accept` (mcmc_loop.hh, lines 37-57) -/

/-- The function `metropolis_accept(dS, mP, beta, rng)`: returns the decision
and the generator after the call. -/
def metropolis_accept {G : Type} (L : Lib G) (dS mP beta : Dbl) (rng : G) : Bool × G :=
  if beta.isinf then
    (dS.lt 0, rng)
  else
    let a := ((dS.neg).mul beta).add mP
    if a.gt 0 then
      (true, rng)
    else
      let r := L.uniform_real rng
      (r.1.lt (Dbl.exp L.expq a), r.2)

/-! ## The model-state interface of the sweeps -/

/-- Calls made on the model state, in the order in which a sweep makes them. -/
inductive Call where
  | move_proposal (v : Nat)
  | virtual_move_dS (v s : Nat)
  | perform_move (v s : Nat)
  | step (v s : Nat)
  deriving DecidableEq, Repr

/-- The vertex a call is made for. -/
def Call.vertex : Call → Nat
  | Call.move_proposal v => v
  | Call.virtual_move_dS v _ => v
  | Call.perform_move v _ => v
  | Call.step v _ => v

/-- The vertex for which a call of `move_proposal` is made; `none` for the
other calls. -/
def Call.proposed : Call → Option Nat
  | Call.move_proposal v => some v
  | _ => none

/-- The members of the template parameter `MCMCState` that `mcmc_sweep` and
`mcmc_sweep_parallel` use.  `σ` is the mutable model state that the C++ object
refers to; `vlist` is threaded separately because the sweep reorders it. -/
structure MCMCState (σ G : Type) where
  /-- The inverse temperature `get_beta()` / `_beta`. -/
  beta : Dbl
  /-- The number of sweeps `get_niter()` / `_niter`. -/
  niter : Nat
  /-- The flag `is_sequential()`. -/
  sequential : Bool
  /-- The flag `is_deterministic()`. -/
  deterministic : Bool
  /-- The sentinel `_null_move` tested by `mcmc_sweep`. -/
  null_move : Nat
  /-- The sentinel `null_group` tested by `mcmc_sweep_parallel`. -/
  null_group : Nat
  /-- The query `skip_node(v)`. -/
  skip_node : σ → Nat → Bool
  /-- The query `node_state(v)`. -/
  node_state : σ → Nat → Nat
  /-- The query `node_weight(v)`. -/
  node_weight : σ → Nat → Nat
  /-- The call `move_proposal(v, rng)`. -/
  move_proposal : σ → Nat → G → Nat × G
  /-- The call `virtual_move_dS(v, s)`, returning `(dS, mP)`. -/
  virtual_move_dS : σ → Nat → Nat → Dbl × Dbl
  /-- The call `perform_move(v, s)`. -/
  perform_move : σ → Nat → Nat → σ
  /-- The call `step(v, s)`. -/
  step : σ → Nat → Nat → σ

/-- Addition of `size_t` counters. -/
def size_add (a b : Nat) : Nat := (a + b) % 2 ^ 64

/-! ## `mcmc_sweep` (mcmc_loop.hh, lines 60-114) -/

/-- The local variables of `mcmc_sweep` together with the model state, the
generator and the call record. -/
structure SweepAcc (σ G : Type) where
  state : σ
  rng : G
  S : Dbl
  nattempts : Nat
  nmoves : Nat
  calls : List Call

/-- One pass through the body of the inner loop of `mcmc_sweep` (lines 77-107);
`x` is `vlist[vi]`.  The verbose output is not modelled. -/
def mcmc_sweep_visit {σ G : Type} (L : Lib G) (M : MCMCState σ G) (vlist : List Nat)
    (acc : SweepAcc σ G) (x : Nat) : SweepAcc σ G :=
  let pick := if M.sequential then (x, acc.rng) else L.uniform_sample vlist acc.rng
  let v := pick.1
  if M.skip_node acc.state v then
    { acc with rng := pick.2 }
  else
    let p := M.move_proposal acc.state v pick.2
    let s := p.1
    let calls1 := acc.calls ++ [Call.move_proposal v]
    if s = M.null_move then
      { acc with rng := p.2, calls := calls1 }
    else
      let d := M.virtual_move_dS acc.state v s
      let calls2 := calls1 ++ [Call.virtual_move_dS v s]
      let nattempts := size_add acc.nattempts (M.node_weight acc.state v)
      let m := metropolis_accept L d.1 d.2 M.beta p.2
      if m.1 then
        let st1 := M.perform_move acc.state v s
        { state := M.step st1 v s
          rng := m.2
          S := acc.S.add d.1
          nattempts := nattempts
          nmoves := size_add acc.nmoves (M.node_weight st1 v)
          calls := calls2 ++ [Call.perform_move v s, Call.step v s] }
      else
        { state := M.step acc.state v s
          rng := m.2
          S := acc.S
          nattempts := nattempts
          nmoves := acc.nmoves
          calls := calls2 ++ [Call.step v s] }

/-- One iteration of the outer loop of `mcmc_sweep` (lines 72-111): the
optional shuffle, the visits, the optional reversal. -/
def mcmc_sweep_iter {σ G : Type} (L : Lib G) (M : MCMCState σ G)
    (x : List Nat × SweepAcc σ G) : List Nat × SweepAcc σ G :=
  let sh := if M.sequential && !M.deterministic then L.shuffle x.1 x.2.rng else (x.1, x.2.rng)
  let vlist := sh.1
  let acc := vlist.foldl (mcmc_sweep_visit L M vlist) { x.2 with rng := sh.2 }
  (if M.sequential && M.deterministic then vlist.reverse else vlist, acc)

/-- What a sweep leaves behind: the returned tuple `(S, nattempts, nmoves)`,
the model state, the generator, the vertex list and the calls made. -/
structure SweepOut (σ G : Type) where
  ret : Dbl × Nat × Nat
  state : σ
  rng : G
  vlist : List Nat
  calls : List Call

/-- The function `mcmc_sweep(state, rng)`. -/
def mcmc_sweep {σ G : Type} (L : Lib G) (M : MCMCState σ G) (st : σ) (vlist : List Nat)
    (rng : G) : SweepOut σ G :=
  let r := (mcmc_sweep_iter L M)^[M.niter]
    (vlist, { state := st, rng := rng, S := 0, nattempts := 0, nmoves := 0, calls := [] })
  { ret := (r.2.S, r.2.nattempts, r.2.nmoves)
    state := r.2.state
    rng := r.2.rng
    vlist := r.1
    calls := r.2.calls }

/-- The local variables, the model state, the generator and the call record
that a result of `mcmc_sweep` holds. -/
def SweepOut.vars {σ G : Type} (o : SweepOut σ G) : SweepAcc σ G :=
  { state := o.state, rng := o.rng, S := o.ret.1, nattempts := o.ret.2.1,
    nmoves := o.ret.2.2, calls := o.calls }

/-- The result of `mcmc_sweep` that holds the variables `a` and the vertex
list `vlist`. -/
def SweepAcc.out {σ G : Type} (a : SweepAcc σ G) (vlist : List Nat) : SweepOut σ G :=
  { ret := (a.S, a.nattempts, a.nmoves), state := a.state, rng := a.rng, vlist := vlist,
    calls := a.calls }

/-! ## `mcmc_sweep_parallel` (mcmc_loop.hh, lines 117-199), one worker

With one worker `parallel_loop` and `parallel_loop_no_spawn` run their body on
the elements of `vlist` in order, and the worker's generator
`parallel_rng<RNG>::get(rng_)` is the caller's generator.  `init_cache` fills
lookup tables that the model state does not expose. -/

/-- The variables of `mcmc_sweep_parallel` that live across iterations. -/
structure ParAcc (σ G : Type) where
  state : σ
  rng : G
  best_move : Nat → Nat × Dbl
  S : Dbl
  nmoves : Nat
  nattempts : Nat
  calls : List Call

/-- The body of the first loop (lines 140-142): reset the entry of `v`. -/
def best_move_reset {σ G : Type} (M : MCMCState σ G) (st : σ) (bm : Nat → Nat × Dbl)
    (v : Nat) : Nat → Nat × Dbl :=
  Function.update bm v (M.node_state st v, Dbl.max)

/-- The variables the proposal pass writes: `best_move`, the worker's
generator, and the call record. -/
structure PropAcc (G : Type) where
  best_move : Nat → Nat × Dbl
  rng : G
  calls : List Call

/-- The body of the proposal pass (lines 150-176) for the vertex `v`, on the
worker's copy `st` of the state.  The verbose output is not modelled. -/
def propose_visit {σ G : Type} (L : Lib G) (M : MCMCState σ G) (st : σ)
    (acc : PropAcc G) (v : Nat) : PropAcc G :=
  if M.node_weight st v = 0 then
    acc
  else
    let p := M.move_proposal st v acc.rng
    let s := p.1
    let calls1 := acc.calls ++ [Call.move_proposal v]
    if s = M.null_group then
      { acc with rng := p.2, calls := calls1 }
    else
      let d := M.virtual_move_dS st v s
      let calls2 := calls1 ++ [Call.virtual_move_dS v s]
      let m := metropolis_accept L d.1 d.2 M.beta p.2
      if m.1 then
        { best_move := Function.update acc.best_move v (s, d.1), rng := m.2, calls := calls2 }
      else
        { acc with rng := m.2, calls := calls2 }

/-- The variables the reconciliation pass writes; `nattempts` is the counter
declared on line 179, local to one iteration of the outer loop. -/
structure ReconAcc (σ : Type) where
  state : σ
  S : Dbl
  nmoves : Nat
  nattempts : Nat
  calls : List Call

/-- The body of the reconciliation loop (lines 182-195) for the vertex `v`. -/
def reconcile_visit {σ G : Type} (M : MCMCState σ G) (bm : Nat → Nat × Dbl)
    (acc : ReconAcc σ) (v : Nat) : ReconAcc σ :=
  let nattempts := size_add acc.nattempts 1
  let s := (bm v).1
  let dS := (bm v).2
  if dS.ne Dbl.max then
    let ddS := M.virtual_move_dS acc.state v s
    let calls1 := acc.calls ++ [Call.virtual_move_dS v s]
    if ddS.1.gt 0 && M.beta.isinf then
      { acc with nattempts := nattempts, calls := calls1 }
    else
      { state := M.perform_move acc.state v s
        S := acc.S.add ddS.1
        nmoves := size_add acc.nmoves 1
        nattempts := nattempts
        calls := calls1 ++ [Call.perform_move v s] }
  else
    { acc with nattempts := nattempts }

/-- One iteration of the outer loop of `mcmc_sweep_parallel` (lines 137-196).
The counter that the reconciliation loop increments is the one declared inside
the loop body, so the outer `nattempts` is carried through unchanged. -/
def mcmc_sweep_parallel_iter {σ G : Type} (L : Lib G) (M : MCMCState σ G)
    (vlist : List Nat) (acc : ParAcc σ G) : ParAcc σ G :=
  let bm0 := vlist.foldl (best_move_reset M acc.state) acc.best_move
  let pr := vlist.foldl (propose_visit L M acc.state)
    { best_move := bm0, rng := acc.rng, calls := acc.calls }
  let rc := vlist.foldl (reconcile_visit M pr.best_move)
    { state := acc.state, S := acc.S, nmoves := acc.nmoves, nattempts := 0, calls := pr.calls }
  { state := rc.state
    rng := pr.rng
    best_move := pr.best_move
    S := rc.S
    nmoves := rc.nmoves
    nattempts := acc.nattempts
    calls := rc.calls }

/-- What `mcmc_sweep_parallel` leaves behind: the returned tuple
`(S, nattempts, nmoves)`, the model state, the generator, the vector
`best_move` and the calls made. -/
structure ParOut (σ G : Type) where
  ret : Dbl × Nat × Nat
  state : σ
  rng : G
  best_move : Nat → Nat × Dbl
  calls : List Call

/-- The function `mcmc_sweep_parallel(state, rng_)` run by one worker.
`best_move.resize(num_vertices(g))` value-initialises every entry. -/
def mcmc_sweep_parallel {σ G : Type} (L : Lib G) (M : MCMCState σ G) (st : σ)
    (vlist : List Nat) (rng : G) : ParOut σ G :=
  let r := (mcmc_sweep_parallel_iter L M vlist)^[M.niter]
    { state := st, rng := rng, best_move := fun _ => (0, 0), S := 0, nmoves := 0,
      nattempts := 0, calls := [] }
  { ret := (r.S, r.nattempts, r.nmoves)
    state := r.state
    rng := r.rng
    best_move := r.best_move
    calls := r.calls }

/-- Whether every proposed and every reconciled move of one parallel sweep
has a negative objective delta: the vertices of the list are proposed their
moves against the state `st0` as it is before the sweep, the generator `g`
being handed from one proposal to the next, and the moves are committed in
turn from the state `s`; the delta of a proposed move is taken on `st0`, the
delta of a reconciled move on the state reached when its turn comes.  A
proposal equal to `null_group` is no move. -/
def moves_negative {σ G : Type} (M : MCMCState σ G) (st0 : σ) : List Nat → σ → G → Bool
  | [], _, _ => true
  | v :: l, s, g =>
    let p := M.move_proposal st0 v g
    if p.1 = M.null_group then
      moves_negative M st0 l s p.2
    else
      (M.virtual_move_dS st0 v p.1).1.lt 0 && (M.virtual_move_dS s v p.1).1.lt 0 &&
        moves_negative M st0 l (M.perform_move s v p.1) p.2

/-! ## The block-model wrappers
(graph_blockmodel_mcmc.hh and graph_blockmodel_multicanonical.hh) -/

/-- The members of the template parameter `State` (the block state `_state`)
that the two wrappers use.  The scratch argument `_m_entries` is omitted. -/
structure BlockState (σ G : Type) where
  /-- The label `_b[v]`. -/
  b : σ → Nat → Nat
  /-- The constraint class `_bclabel[r]`. -/
  bclabel : σ → Nat → Nat
  /-- The query `is_last(v)`. -/
  is_last : σ → Nat → Bool
  /-- The query `virtual_remove_size(v)`. -/
  virtual_remove_size : σ → Nat → Nat
  /-- The call `sample_block(v, c, block_list, rng)`. -/
  sample_block : σ → Nat → Dbl → List Nat → G → Nat × G
  /-- The call `virtual_move(v, nr, dense, multigraph, partition_dl, degree_dl,
  edges_dl)`. -/
  virtual_move : σ → Nat → Nat → Bool → Bool → Bool → Bool → Bool → Dbl
  /-- The call `get_move_prob(v, r, s, c, reverse)`. -/
  get_move_prob : σ → Nat → Nat → Nat → Dbl → Bool → Dbl
  /-- The call `move_vertex(v, nr)`. -/
  move_vertex : σ → Nat → Nat → σ
  /-- The library function `log` on doubles. -/
  log : Dbl → Dbl

/-- The parameters of `MCMC_BLOCK_STATE_params` and
`MULTICANONICAL_BLOCK_STATE_params` that the member functions read. -/
structure BlockParams where
  block_list : List Nat
  beta : Dbl
  c : Dbl
  multigraph : Bool
  dense : Bool
  partition_dl : Bool
  degree_dl : Bool
  edges_dl : Bool
  allow_empty : Bool
  sequential : Bool
  niter : Nat

namespace MCMCBlockState

/-- The member `node_state` (graph_blockmodel_mcmc.hh, lines 83-86). -/
def node_state {σ G : Type} (B : BlockState σ G) (st : σ) (v : Nat) : Nat := B.b st v

/-- The member `move_proposal` (graph_blockmodel_mcmc.hh, lines 88-102). -/
def move_proposal {σ G : Type} (B : BlockState σ G) (P : BlockParams) (st : σ) (v : Nat)
    (rng : G) : Nat × G :=
  let r := B.b st v
  if !P.allow_empty && B.is_last st v then
    (r, rng)
  else
    let sb := B.sample_block st v P.c P.block_list rng
    let s := sb.1
    if B.bclabel st s ≠ B.bclabel st r then
      (r, sb.2)
    else
      (s, sb.2)

/-- The member `virtual_move_dS` (graph_blockmodel_mcmc.hh, lines 104-120). -/
def virtual_move_dS {σ G : Type} (B : BlockState σ G) (P : BlockParams) (st : σ)
    (v nr : Nat) : Dbl × Dbl :=
  let dS := B.virtual_move st v nr P.dense P.multigraph P.partition_dl P.degree_dl P.edges_dl
  if !P.c.isinf then
    let r := B.b st v
    let pf := B.get_move_prob st v r nr P.c false
    let pb := B.get_move_prob st v nr r P.c true
    (dS, (B.log pb).sub (B.log pf))
  else
    (dS, 0)

/-- The member `perform_move` (graph_blockmodel_mcmc.hh, lines 122-125). -/
def perform_move {σ G : Type} (B : BlockState σ G) (st : σ) (v nr : Nat) : σ :=
  B.move_vertex st v nr

end MCMCBlockState

namespace MulticanonicalBlockState

/-- The member `node_state` (graph_blockmodel_multicanonical.hh, lines 85-88). -/
def node_state {σ G : Type} (B : BlockState σ G) (st : σ) (v : Nat) : Nat := B.b st v

/-- The member `move_proposal` (graph_blockmodel_multicanonical.hh, lines
90-104). -/
def move_proposal {σ G : Type} (B : BlockState σ G) (P : BlockParams) (st : σ) (v : Nat)
    (rng : G) : Nat × G :=
  let r := B.b st v
  let sb := B.sample_block st v P.c P.block_list rng
  let s := sb.1
  if B.bclabel st s ≠ B.bclabel st r then
    (r, sb.2)
  else if !P.allow_empty && B.virtual_remove_size st v = 0 then
    (r, sb.2)
  else
    (s, sb.2)

/-- The member `virtual_move_dS` (graph_blockmodel_multicanonical.hh, lines
106-121). -/
def virtual_move_dS {σ G : Type} (B : BlockState σ G) (P : BlockParams) (st : σ)
    (v nr : Nat) : Dbl × Dbl :=
  let dS := B.virtual_move st v nr P.dense P.multigraph P.partition_dl P.degree_dl P.edges_dl
  if !P.c.isinf then
    let r := B.b st v
    let pf := B.get_move_prob st v r nr P.c false
    let pb := B.get_move_prob st v nr r P.c true
    (dS, (B.log pb).sub (B.log pf))
  else
    (dS, 0)

/-- The member `perform_move` (graph_blockmodel_multicanonical.hh, lines
123-126). -/
def perform_move {σ G : Type} (B : BlockState σ G) (st : σ) (v nr : Nat) : σ :=
  B.move_vertex st v nr

end MulticanonicalBlockState

/-- The members that `mcmc_sweep` requires of its state and that
`MCMCBlockState` does not define itself. -/
structure SweepHooks (σ : Type) where
  deterministic : Bool
  null_move : Nat
  null_group : Nat
  skip_node : σ → Nat → Bool
  node_weight : σ → Nat → Nat
  step : σ → Nat → Nat → σ

/-- The state handed to the sweeps when the sampler is `MCMCBlockState`: its
four members and its parameters, completed by the hooks `H`. -/
def MCMCBlockState.toMCMCState {σ G : Type} (B : BlockState σ G) (P : BlockParams)
    (H : SweepHooks σ) : MCMCState σ G :=
  { beta := P.beta
    niter := P.niter
    sequential := P.sequential
    deterministic := H.deterministic
    null_move := H.null_move
    null_group := H.null_group
    skip_node := H.skip_node
    node_state := MCMCBlockState.node_state B
    node_weight := H.node_weight
    move_proposal := MCMCBlockState.move_proposal B P
    virtual_move_dS := MCMCBlockState.virtual_move_dS B P
    perform_move := MCMCBlockState.perform_move B
    step := H.step }

/-! ## Concrete instances used to evaluate the code -/

/-- A library whose generator is a counter: the uniform draw is always `1/2`,
`exp` on finite doubles is the increasing function `q ↦ 1 / (1 - q)` for
`q ≤ 0` and `q ↦ 1 + q` above, the shuffle is the identity. -/
def lib0 : Lib Nat :=
  { expq := fun q => if q ≤ 0 then 1 / (1 - q) else 1 + q
    uniform_real := fun g => (Dbl.fin (1 / 2), g + 1)
    shuffle := fun l g => (l, g + 1)
    uniform_sample := fun l g => (l.getD (g % l.length) 0, g + 1) }

/-- The number of unordered pairs of positions of `l` that carry the same
label: the objective of the small block model below. -/
def samePairs : List Nat → Nat
  | [] => 0
  | x :: l => l.count x + samePairs l

/-- A small block model on the label vector itself: one constraint class,
`is_last` and `virtual_remove_size` counted from the labels, proposals read
from `block_list` at the generator's position, the objective `samePairs`. -/
def block0 : BlockState (List Nat) Nat :=
  { b := fun st v => st.getD v 0
    bclabel := fun _ _ => 0
    is_last := fun st v => st.count (st.getD v 0) = 1
    virtual_remove_size := fun st v => st.count (st.getD v 0) - 1
    sample_block := fun _ _ _ bl g => (bl.getD (g % bl.length) 0, g + 1)
    virtual_move := fun st v nr _ _ _ _ _ =>
      Dbl.fin ((samePairs (st.set v nr) : ℚ) - (samePairs st : ℚ))
    get_move_prob := fun _ _ _ _ _ _ => 1
    move_vertex := fun st v nr => st.set v nr
    log := fun x => match x with
      | Dbl.fin q => Dbl.fin (q - 1)
      | y => y }

/-- Parameters for `block0`: greedy (`beta` infinite), uniform proposals (`c`
infinite), empty groups not allowed, one sequential sweep. -/
def params0 : BlockParams :=
  { block_list := [0, 1, 2]
    beta := Dbl.pinf
    c := Dbl.pinf
    multigraph := false
    dense := false
    partition_dl := false
    degree_dl := false
    edges_dl := false
    allow_empty := false
    sequential := true
    niter := 1 }

/-- Hooks for `block0`: nothing is skipped, unit weights, `step` does nothing,
the sentinels are `2^64 - 1`. -/
def hooks0 : SweepHooks (List Nat) :=
  { deterministic := true
    null_move := 2 ^ 64 - 1
    null_group := 2 ^ 64 - 1
    skip_node := fun _ _ => false
    node_weight := fun _ _ => 1
    step := fun st _ _ => st }

/-- The greedy single-sweep state on `block0` with empty groups allowed. -/
def par0 : MCMCState (List Nat) Nat :=
  MCMCBlockState.toMCMCState block0 { params0 with allow_empty := true } hooks0

/-- The block model `block0` with the cost of every move set to `-1`. -/
def block1 : BlockState (List Nat) Nat :=
  { block0 with virtual_move := fun _ _ _ _ _ _ _ _ => Dbl.fin (-1) }

/-- The greedy single-sweep state on `block1`, unit weights. -/
def greedy1 : MCMCState (List Nat) Nat :=
  MCMCBlockState.toMCMCState block1 { params0 with allow_empty := true } hooks0

/-- The state `greedy1` with every vertex carrying weight 2. -/
def greedy2 : MCMCState (List Nat) Nat :=
  MCMCBlockState.toMCMCState block1 { params0 with allow_empty := true }
    { hooks0 with node_weight := fun _ _ => 2 }

/-- The block model `block0` with the cost of moving `v` to `nr` set to
`-(1 + v * nr)`, negative for every move. -/
def block2 : BlockState (List Nat) Nat :=
  { block0 with
    virtual_move := fun _ v nr _ _ _ _ _ => Dbl.fin (-(1 + (v : ℚ) * (nr : ℚ))) }

/-- The greedy state on `block2`, unit weights, two sweeps in sequential
deterministic mode. -/
def greedy3 : MCMCState (List Nat) Nat :=
  MCMCBlockState.toMCMCState block2 { params0 with allow_empty := true, niter := 2 } hooks0

/-- The single-sweep state on `block0` at `beta = 1`, empty groups not
allowed. -/
def seq1 : MCMCState (List Nat) Nat :=
  MCMCBlockState.toMCMCState block0 { params0 with beta := 1 } hooks0

/-- The state `par0` in which vertex 0 has weight 0 and the others weight 1. -/
def parw : MCMCState (List Nat) Nat :=
  MCMCBlockState.toMCMCState block0 { params0 with allow_empty := true }
    { hooks0 with node_weight := fun _ v => if v = 0 then 0 else 1 }

/-- The greedy state on `block2`, unit weights, one sweep in sequential
deterministic mode. -/
def greedy4 : MCMCState (List Nat) Nat :=
  MCMCBlockState.toMCMCState block2 { params0 with allow_empty := true } hooks0

/-- The state `greedy4` in which `skip_node` holds for vertex 0. -/
def greedy_skip : MCMCState (List Nat) Nat :=
  MCMCBlockState.toMCMCState block2 { params0 with allow_empty := true }
    { hooks0 with skip_node := fun _ v => v == 0 }

/-- The state `greedy4` with the sentinel `_null_move` set to 1 while
`null_group` stays `2^64 - 1`. -/
def greedy_null : MCMCState (List Nat) Nat :=
  MCMCBlockState.toMCMCState block2 { params0 with allow_empty := true }
    { hooks0 with null_move := 1 }

/-- The state `greedy4` in sequential mode without the deterministic flag. -/
def greedy_shuffled : MCMCState (List Nat) Nat :=
  MCMCBlockState.toMCMCState block2 { params0 with allow_empty := true }
    { hooks0 with deterministic := false }

/-- The state `greedy4` in non-sequential mode. -/
def greedy_sampled : MCMCState (List Nat) Nat :=
  MCMCBlockState.toMCMCState block2
    { params0 with allow_empty := true, sequential := false } hooks0

/-- The block model `block0` with the cost of every move set to minus one
minus the sum of the labels, negative in every state. -/
def block5 : BlockState (List Nat) Nat :=
  { block0 with
    virtual_move := fun st _ _ _ _ _ _ _ => Dbl.fin (-(1 + (st.sum : ℚ))) }

/-- The greedy single-sweep state on `block5` whose `step(v, s)` sets the label
of `v` to 7. -/
def greedy_step : MCMCState (List Nat) Nat :=
  MCMCBlockState.toMCMCState block5 { params0 with allow_empty := true }
    { hooks0 with step := fun st v _ => st.set v 7 }

/-- The block model `block2` with proposals that depend on the labels: the
position read from `block_list` is shifted by the sum of the labels. -/
def block6 : BlockState (List Nat) Nat :=
  { block2 with
    sample_block := fun st _ _ bl g => (bl.getD ((g + st.sum) % bl.length) 0, g + 1) }

/-- The greedy single-sweep state on `block6`, unit weights. -/
def greedy_prop : MCMCState (List Nat) Nat :=
  MCMCBlockState.toMCMCState block6 { params0 with allow_empty := true } hooks0

/-! ## The order of visits in `mcmc_sweep` -/

/-- The vertex `v` chosen on line 77-78 of mcmc_loop.hh in the pass of the
inner loop whose list entry is `x`. -/
def mcmc_sweep_pick {σ G : Type} (L : Lib G) (M : MCMCState σ G) (vlist : List Nat)
    (acc : SweepAcc σ G) (x : Nat) : Nat :=
  (if M.sequential then (x, acc.rng) else L.uniform_sample vlist acc.rng).1

/-- The vertices chosen, in order, while the inner loop of `mcmc_sweep` runs
over the list entries `l` starting from `acc`. -/
def mcmc_sweep_visited {σ G : Type} (L : Lib G) (M : MCMCState σ G) (vlist : List Nat) :
    SweepAcc σ G → List Nat → List Nat
  | _, [] => []
  | acc, x :: l =>
    mcmc_sweep_pick L M vlist acc x ::
      mcmc_sweep_visited L M vlist (mcmc_sweep_visit L M vlist acc x) l

/-- The vertices chosen by `mcmc_sweep`, one list per iteration of the outer
loop, for `n` iterations starting from the list and variables `x`. -/
def mcmc_sweep_orders {σ G : Type} (L : Lib G) (M : MCMCState σ G) :
    Nat → List Nat × SweepAcc σ G → List (List Nat)
  | 0, _ => []
  | n + 1, x =>
    let sh := if M.sequential && !M.deterministic then L.shuffle x.1 x.2.rng
      else (x.1, x.2.rng)
    mcmc_sweep_visited L M sh.1 { x.2 with rng := sh.2 } sh.1 ::
      mcmc_sweep_orders L M n (mcmc_sweep_iter L M x)

/-- The state `par0` run for three sweeps. -/
def par3 : MCMCState (List Nat) Nat :=
  MCMCBlockState.toMCMCState block0 { params0 with allow_empty := true, niter := 3 } hooks0

/-! ## The dispatch layer (graph_state.hh)

Types are identified by values of `τ`, field names by their index in the array
`names`, and C++ values by elements of `V`.  What the code asks of
boost::python and boost::any is modelled as follows.

* A `boost::any` is a pair of the type it holds and the value; `any_cast<T>`
  succeeds exactly when the held type is `T` and throws `bad_any_cast`
  otherwise.
* A Python object is seen through the three questions the code asks of it:
  `python::extract<T>(obj)` for a type `T`, `python::extract<boost::any&>(obj)`,
  and whether it has an attribute `_get_any` (and if so what
  `python::extract<boost::any&>` finds in the object `_get_any()` returns).
* `mobj.attr(name)` raises a Python error (`error_already_set`) when the
  attribute is missing; calling `operator()` of a `python::extract<boost::any&>`
  whose `check()` is false raises a Python error (`error_already_set`) too.
-/

/-- A `boost::any`: the type it holds and the value. -/
structure BoostAny (τ V : Type) where
  type : τ
  value : V

/-- A Python object as the dispatch layer sees it. -/
structure PyObj (τ V : Type) where
  /-- The result of `python::extract<T>(obj)`: `none` when `check()` is false. -/
  conv : τ → Option V
  /-- The result of `python::extract<boost::any&>(obj)`. -/
  as_any : Option (BoostAny τ V)
  /-- Whether `obj` has the attribute `_get_any` and, if so, the result of
  `python::extract<boost::any&>` on the object that `obj._get_any()` returns. -/
  get_any : Option (Option (BoostAny τ V))
  /-- The object itself as a C++ value of type `python::object`. -/
  self : V

/-- A configuration bundle: the attribute of each name, if present. -/
abbrev Bundle (τ V : Type) := Nat → Option (PyObj τ V)

/-- The exceptions that leave the dispatch layer; `thrown e` is an exception
`e` of the continuation. -/
inductive Exn (τ ε : Type) where
  /-- A Python error raised by boost::python (`error_already_set`). -/
  | error_already_set
  /-- The exception `ValueException("Cannot extract parameter 'name' of desired
  type(s): ...")`, with the field name and the expected types. -/
  | ValueException (name : Nat) (types : List τ)
  /-- The exception `GraphException("dispatch not found for: ...")`. -/
  | GraphException
  /-- The failure of `gt_dispatch` to resolve its arguments. -/
  | ActionNotFound
  /-- An exception thrown by the continuation `f`. -/
  | thrown (e : ε)
  deriving DecidableEq, Repr

/-! ### `StateWrap::dispatch` (graph_state.hh, lines 135-178) -/

/-- The variables of `dispatch(ostate, f, throw_not_found)` while the catalog
is enumerated: what the continuation has done to its surroundings (`world`),
the flag `found`, the entries on which `f` has been invoked, and the exception
of `f` that has left the enumeration, if any. -/
structure DispatchAcc (τ ε ω : Type) where
  world : ω
  found : Bool
  invoked : List τ
  thrown : Option ε

/-- The lambda of lines 162-173 applied to the catalog entry `t`. -/
def dispatch_visit {τ V ε ω : Type} (ostate : PyObj τ V) (f : τ → V → ω → Except ε ω)
    (acc : DispatchAcc τ ε ω) (t : τ) : DispatchAcc τ ε ω :=
  match acc.thrown with
  | some _ => acc
  | none =>
    match ostate.conv t with
    | some state =>
      match f t state acc.world with
      | Except.ok w =>
        { world := w, found := true, invoked := acc.invoked ++ [t], thrown := none }
      | Except.error e =>
        { acc with invoked := acc.invoked ++ [t], thrown := some e }
    | none => acc

/-- What `dispatch` leaves behind: the surroundings of the continuation, the
entries on which the continuation was invoked, in order, and the exception
that left the call, if any. -/
structure DispatchOut (τ ε ω : Type) where
  world : ω
  invoked : List τ
  error : Option (Exn τ ε)

/-- The function `StateWrap::dispatch(ostate, f, throw_not_found)`.  `catalog`
is the sequence of state types `FactoryWrap<...>::type` in the order in which
`mpl::nested_for_each<TRS...>` enumerates the type ranges. -/
def dispatch {τ V ε ω : Type} (catalog : List τ) (ostate : PyObj τ V)
    (f : τ → V → ω → Except ε ω) (throw_not_found : Bool) (w : ω) : DispatchOut τ ε ω :=
  let r := catalog.foldl (dispatch_visit ostate f)
    { world := w, found := false, invoked := [], thrown := none }
  match r.thrown with
  | some e =>
    { world := r.world, invoked := r.invoked, error := some (Exn.thrown e) }
  | none =>
    if !r.found && throw_not_found then
      { world := r.world, invoked := r.invoked, error := some Exn.GraphException }
    else
      { world := r.world, invoked := r.invoked, error := none }

/-! ### `StateWrap::get_any` (graph_state.hh, lines 263-302) -/

/-- The lambda of lines 276-295 applied to the type `t` of the range: `ret` and
`found` are the two components of the optional value. -/
def get_any_visit {τ V : Type} (is_pyobject : τ → Bool) (obj : PyObj τ V)
    (ret : Option (BoostAny τ V)) (t : τ) : Option (BoostAny τ V) :=
  if is_pyobject t then
    some { type := t, value := obj.self }
  else
    match obj.conv t with
    | some val => some { type := t, value := val }
    | none => ret

/-- The function `get_any(mobj, name, TR)`; `is_pyobject t` tells whether the
type `t` is `python::object`. -/
def get_any {τ V ε : Type} (is_pyobject : τ → Bool) (mobj : Bundle τ V) (name : Nat)
    (TR : List τ) : Except (Exn τ ε) (BoostAny τ V) :=
  match mobj name with
  | none => Except.error Exn.error_already_set
  | some obj =>
    match obj.get_any with
    | some r =>
      match r with
      | some a => Except.ok a
      | none => Except.error Exn.error_already_set
    | none =>
      match TR.foldl (get_any_visit is_pyobject obj) none with
      | some ret => Except.ok ret
      | none => Except.error (Exn.ValueException name TR)

/-! ### `make_dispatch::extract` (graph_state.hh, lines 215-260) -/

/-- The two exceptions that can be raised inside the `try` blocks of
`extract`. -/
inductive AnyExn where
  | bad_any_cast
  | error_already_set
  deriving DecidableEq, Repr

/-- The call `any_cast<T>(aval)`. -/
def any_cast {τ V : Type} [DecidableEq τ] (T : τ) (aval : BoostAny τ V) : Except AnyExn V :=
  if aval.type = T then Except.ok aval.value else Except.error AnyExn.bad_any_cast

/-- The call `extract()` on a `python::extract<boost::any&>` whose result of
extraction is `r`: a Python error when nothing was extracted. -/
def extract_any_call {τ V : Type} (r : Option (BoostAny τ V)) : Except AnyExn (BoostAny τ V) :=
  match r with
  | some aval => Except.ok aval
  | none => Except.error AnyExn.error_already_set

/-- The function `extract<T>(mobj, name)`; `ref T` is the type
`std::reference_wrapper<std::remove_reference<T>::type>`. -/
def extract {τ V ε : Type} [DecidableEq τ] (ref : τ → τ) (mobj : Bundle τ V) (name : Nat)
    (T : τ) : Except (Exn τ ε) V :=
  match mobj name with
  | none => Except.error Exn.error_already_set
  | some obj =>
    match obj.conv T with
    | some val => Except.ok val
    | none =>
      let aobj := match obj.get_any with
        | some r => r
        | none => obj.as_any
      let first : Except AnyExn V :=
        match aobj with
        | none => Except.error AnyExn.bad_any_cast
        | some aval => any_cast T aval
      match first with
      | Except.ok val => Except.ok val
      | Except.error AnyExn.error_already_set => Except.error Exn.error_already_set
      | Except.error AnyExn.bad_any_cast =>
        let second : Except AnyExn V :=
          match extract_any_call aobj with
          | Except.ok aval => any_cast (ref T) aval
          | Except.error e => Except.error e
        match second with
        | Except.ok val => Except.ok val
        | Except.error AnyExn.error_already_set => Except.error Exn.error_already_set
        | Except.error AnyExn.bad_any_cast => Except.error (Exn.ValueException name [T])

/-! ### `make_dispatch::operator()` (graph_state.hh, lines 184-213) -/

/-- The parts of the surroundings of `make_dispatch` that are not in the
repository's sources. -/
structure DispatchEnv (τ V S : Type) where
  /-- Whether a type is `python::object`. -/
  is_pyobject : τ → Bool
  /-- The type `std::reference_wrapper<T>` of a type `T`. -/
  ref : τ → τ
  /-- The function `uncheck` on values. -/
  uncheck : V → V
  /-- What `gt_dispatch<>()(partial_f, TRS()...)` does with the type-erased
  arguments: the typed arguments it hands to `partial_f`, or `none` when no
  combination of the type ranges fits. -/
  resolve : List (List τ) → List (BoostAny τ V) → Option (List V)
  /-- The constructor `FactoryWrap<...>()(extra..., full_args...)`. -/
  factory : List V → S

/-- A Python object that converts to the type 1 only (value 10). -/
def py_one : PyObj Nat Nat :=
  { conv := fun t => if t = 1 then some 10 else none
    as_any := none
    get_any := none
    self := 0 }

/-- A Python object that converts to the types 1 and 2 (values 10 and 20). -/
def py_two : PyObj Nat Nat :=
  { conv := fun t => if t = 1 then some 10 else if t = 2 then some 20 else none
    as_any := none
    get_any := none
    self := 0 }

/-- A Python object that converts to no type and holds no `boost::any`. -/
def py_none : PyObj Nat Nat :=
  { conv := fun _ => none
    as_any := none
    get_any := none
    self := 0 }

/-- A Python object whose `_get_any()` returns a `boost::any` holding the value
30 of type 3. -/
def py_any : PyObj Nat Nat :=
  { conv := fun _ => none
    as_any := none
    get_any := some (some { type := 3, value := 30 })
    self := 0 }

/-- A continuation that appends the value it is handed to the record. -/
def record_f : Nat → Nat → List Nat → Except Unit (List Nat) :=
  fun _ v w => Except.ok (w ++ [v])

/-- A Python object whose `_get_any()` returns a `boost::any` holding a
reference wrapper (type `3 + 100`) of the value 40. -/
def py_ref : PyObj Nat Nat :=
  { conv := fun _ => none
    as_any := none
    get_any := some (some { type := 103, value := 40 })
    self := 0 }

/-- A Python object that is itself a `boost::any` holding the value 50 of
type 9. -/
def py_other : PyObj Nat Nat :=
  { conv := fun _ => none
    as_any := some { type := 9, value := 50 }
    get_any := none
    self := 0 }

/-- Surroundings for the concrete dispatches: type 0 is `python::object`, the
reference wrapper of type `t` is type `t + 100`, `uncheck` is the identity,
`gt_dispatch` hands over the held values, the state is the list of its
constructor arguments. -/
def env0 : DispatchEnv Nat Nat (List Nat) :=
  { is_pyobject := fun t => t = 0
    ref := fun t => t + 100
    uncheck := fun v => v
    resolve := fun _ anys => some (anys.map (fun a => a.value))
    factory := fun args => args }

/-- A bundle with fields 0 to 4 holding `py_one`, `py_any`, `py_ref`,
`py_other` and `py_none`. -/
def bundle_all : Bundle Nat Nat :=
  fun n => if n = 0 then some py_one else if n = 1 then some py_any
    else if n = 2 then some py_ref else if n = 3 then some py_other
    else if n = 4 then some py_none else none

/-! ## `virtual_move_dS` with callees that may write

The members `virtual_move` and `get_move_prob` of the block state are not
declared `const`.  The following variant of `BlockState` lets them return the
block state they leave behind, so that the writes of the wrapper itself can be
told apart from theirs. -/

/-- The members of the block state used by `virtual_move_dS`, each returning
its value and the block state after the call. -/
structure BlockStateFx (σ : Type) where
  /-- The label `_b[v]`. -/
  b : σ → Nat → Nat
  /-- The call `virtual_move(v, nr, dense, multigraph, partition_dl, degree_dl,
  edges_dl)`. -/
  virtual_move : σ → Nat → Nat → Bool → Bool → Bool → Bool → Bool → Dbl × σ
  /-- The call `get_move_prob(v, r, s, c, reverse)`. -/
  get_move_prob : σ → Nat → Nat → Nat → Dbl → Bool → Dbl × σ
  /-- The library function `log` on doubles. -/
  log : Dbl → Dbl

/-- The body shared by `MCMCBlockState::virtual_move_dS` and
`MulticanonicalBlockState::virtual_move_dS`, statement by statement, returning
the pair and the block state after the call. -/
def virtual_move_dS_fx {σ : Type} (B : BlockStateFx σ) (P : BlockParams) (st : σ)
    (v nr : Nat) : (Dbl × Dbl) × σ :=
  let d := B.virtual_move st v nr P.dense P.multigraph P.partition_dl P.degree_dl P.edges_dl
  if !P.c.isinf then
    let r := B.b d.2 v
    let pf := B.get_move_prob d.2 v r nr P.c false
    let pb := B.get_move_prob pf.2 v nr r P.c true
    ((d.1, (B.log pb.1).sub (B.log pf.1)), pb.2)
  else
    ((d.1, 0), d.2)

/-- A block state whose callees do not write: the view of a `BlockState` as a
`BlockStateFx`. -/
def BlockState.toFx {σ G : Type} (B : BlockState σ G) : BlockStateFx σ :=
  { b := B.b
    virtual_move := fun st v nr d m p g e => (B.virtual_move st v nr d m p g e, st)
    get_move_prob := fun st v r s c rev => (B.get_move_prob st v r s c rev, st)
    log := B.log }

/-- The block model `block0` with move probabilities `1/2` forward and `1/4`
backward. -/
def block4 : BlockState (List Nat) Nat :=
  { block0 with
    get_move_prob := fun _ _ _ _ _ rev => if rev then Dbl.fin (1 / 4) else Dbl.fin (1 / 2) }

/-- The block model `block0` with the cost of every move set to `-1` in the
state `[0, 0]` and to NaN in every other state. -/
def block3 : BlockState (List Nat) Nat :=
  { block0 with
    virtual_move := fun st _ _ _ _ _ _ _ => if st = [0, 0] then Dbl.fin (-1) else Dbl.nan }

/-- The greedy single-sweep state on `block3`, unit weights. -/
def greedy_nan : MCMCState (List Nat) Nat :=
  MCMCBlockState.toMCMCState block3 { params0 with allow_empty := true } hooks0

/-! ## The re-labelling utilities (graph_inference.cc, lines 82-127)

`Value` is `int32_t` or `int64_t`: a signed integer of `w` bits.  Arrays are
lists of integers; an access outside an array is reported as `none`.  The two
arrays handed to `vector_map` and `vector_rmap` are distinct objects. -/

/-- The conversion of the `size_t` value `n` to `Value`. -/
def to_value (w : Nat) (n : Nat) : Int := Int.bmod n (2 ^ w)

/-- The loop of `vector_continuous_map` on the remaining entries of `vals`;
`map` is the hash map as the list of its key-value pairs, most recent first.
The result is the new content of the entries. -/
def vector_continuous_map_loop (w : Nat) : List Int → List (Int × Nat) → List Int
  | [], _ => []
  | v :: vs, map =>
    match map.lookup v with
    | some l => to_value w l :: vector_continuous_map_loop w vs map
    | none =>
      to_value w map.length :: vector_continuous_map_loop w vs ((v, map.length) :: map)

/-- The function `vector_continuous_map<Value>(ovals)`: the content of `vals`
after the call. -/
def vector_continuous_map (w : Nat) (vals : List Int) : List Int :=
  vector_continuous_map_loop w vals []

/-- The loop of `vector_map` on the remaining entries of `vals`, with the
counter `pos` and the array `map`.  The result is the new content of the
entries and the array `map` after the loop. -/
def vector_map_loop (w : Nat) : List Int → Nat → List Int → Option (List Int × List Int)
  | [], _, map => some ([], map)
  | v :: vs, pos, map =>
    if 0 ≤ v ∧ v.toNat < map.length then
      let fresh := decide (map.getD v.toNat 0 = -1)
      let map1 := if fresh then map.set v.toNat (to_value w pos) else map
      let pos1 := if fresh then pos + 1 else pos
      match vector_map_loop w vs pos1 map1 with
      | some r => some (map1.getD v.toNat 0 :: r.1, r.2)
      | none => none
    else
      none

/-- The function `vector_map<Value>(ovals, omap)`: the contents of `vals` and
of `map` after the call. -/
def vector_map (w : Nat) (vals map : List Int) : Option (List Int × List Int) :=
  vector_map_loop w vals 0 map

/-- The loop of `vector_rmap` on the remaining entries of `vals`, with the
index `i` of the first of them and the array `map`. -/
def vector_rmap_loop (w : Nat) : List Int → Nat → List Int → Option (List Int)
  | [], _, map => some map
  | v :: vs, i, map =>
    if 0 ≤ v ∧ v.toNat < map.length then
      vector_rmap_loop w vs (i + 1) (map.set v.toNat (to_value w i))
    else
      none

/-- The function `vector_rmap<Value>(ovals, omap)`: the contents of `vals` and
of `map` after the call. -/
def vector_rmap (w : Nat) (vals map : List Int) : Option (List Int × List Int) :=
  match vector_rmap_loop w vals 0 map with
  | some map1 => some (vals, map1)
  | none => none

/-- The number of distinct values of `l` whose first occurrence precedes the
first occurrence of `x`. -/
def first_rank (l : List Int) (x : Int) : Nat :=
  (l.toFinset.filter (fun y => l.indexOf y < l.indexOf x)).card

/-- The nonpositive values of the `w`-bit type `Value` in increasing order,
from the least one, `-2^(w-1)`, to 0: an array of `2^(w-1) + 1` distinct
values. -/
def nonpositive_values (w : Nat) : List Int :=
  List.map (fun n : Nat => (n : Int) - 2 ^ (w - 1)) (List.range (2 ^ (w - 1) + 1))

/-! ## `collect_edge_marginals` (graph_inference.cc, lines 51-79)

The per-edge vectors have elements of a scalar type `α`, of which the code
uses the value `zero` that `resize` gives to new elements and the increment
`incr` (`operator++`).  The labels `b[u]` are `int32_t` values; `B` and the
index `j` are `size_t` values, computed modulo `2^64`. -/

/-- The conversion of an `int32_t` to `size_t`. -/
def to_size_t (x : Int) : Nat := (x % 2 ^ 64).toNat

/-- The body of the edge loop (lines 65-75) for an edge with the given source
and target and the per-edge vector `pv`: the vector after the pass, or `none`
when `pv[j]` lies outside the vector. -/
def collect_edge_marginals_visit {α : Type} (zero : α) (incr : α → α) (B : Nat)
    (b : Nat → Int) (source target : Nat) (pv : List α) : Option (List α) :=
  let u := min source target
  let v := max source target
  let r := b u
  let s := b v
  let pv1 := if pv.length < (B * B) % 2 ^ 64
    then pv ++ List.replicate ((B * B) % 2 ^ 64 - pv.length) zero else pv
  let j := (to_size_t r + (B * to_size_t s) % 2 ^ 64) % 2 ^ 64
  match pv1[j]? with
  | some x => some (pv1.set j (incr x))
  | none => none

/-- The function `collect_edge_marginals(gi, B, ob, op)`: `edges` lists the
source and target of every edge, `p` the vector of every edge in the same
order; the result is the vectors after the call. -/
def collect_edge_marginals {α : Type} (zero : α) (incr : α → α) (B : Nat)
    (b : Nat → Int) : List (Nat × Nat) → List (List α) → Option (List (List α))
  | e :: edges, pv :: p =>
    match collect_edge_marginals_visit zero incr B b e.1 e.2 pv with
    | some pv1 =>
      match collect_edge_marginals zero incr B b edges p with
      | some rest => some (pv1 :: rest)
      | none => none
    | none => none
  | _, _ => some []

/-! # Theorems -/

/-! ## Facts about doubles -/

theorem Dbl.zero_def : (0 : Dbl) = Dbl.fin 0 := rfl

theorem Dbl.one_def : (1 : Dbl) = Dbl.fin 1 := rfl

theorem Dbl.gt_false_of_le {x y : Dbl} (h : x.le y = true) : x.gt y = false := by
  cases x <;> cases y <;> simp_all [Dbl.le, Dbl.gt, Dbl.lt]

theorem Dbl.gt_false_of_lt {x y : Dbl} (h : x.lt y = true) : x.gt y = false := by
  cases x <;> cases y <;> simp_all [Dbl.gt, Dbl.lt]
  exact le_of_lt h

theorem Dbl.ne_max_of_lt_zero {x : Dbl} (h : x.lt 0 = true) : x.ne Dbl.max = true := by
  cases x <;> simp_all [Dbl.lt, Dbl.ne, Dbl.max, Dbl.zero_def]
  intro h1
  rw [h1] at h
  norm_num at h

/-! ## `metropolis_accept` -/

/-- C1: with an infinite `beta`, `metropolis_accept` returns `dS < 0` for every
`dS`, every `mP` and every generator state, and hands the generator back
untouched: no random number is drawn, whatever the library `L` is. -/
theorem metropolis_accept_infinite_beta {G : Type} (L : Lib G) (dS mP beta : Dbl) (rng : G)
    (hb : beta.isinf = true) :
    metropolis_accept L dS mP beta rng = (dS.lt 0, rng) := by
  simp [metropolis_accept, hb]

/-- The statement of C1 at `dS = -1`, `mP = 3`, `beta = +inf`. -/
theorem metropolis_accept_infinite_beta_witness :
    Dbl.pinf.isinf = true ∧
      metropolis_accept lib0 (Dbl.fin (-1)) (Dbl.fin 3) Dbl.pinf 7
        = ((Dbl.fin (-1)).lt 0, 7) :=
  ⟨rfl, metropolis_accept_infinite_beta lib0 (Dbl.fin (-1)) (Dbl.fin 3) Dbl.pinf 7 rfl⟩

/-- C2: with a finite `beta`, `metropolis_accept` computes `a = -dS * beta + mP`;
when `a > 0` it returns true and hands the generator back untouched; when
`a <= 0` it draws one uniform number `u` and returns true exactly when
`u < exp a`. -/
theorem metropolis_accept_finite_beta {G : Type} (L : Lib G) (dS mP beta : Dbl) (rng : G)
    (hb : beta.isinf = false) :
    ((((dS.neg).mul beta).add mP).gt 0 = true →
        metropolis_accept L dS mP beta rng = (true, rng)) ∧
    ((((dS.neg).mul beta).add mP).le 0 = true →
        metropolis_accept L dS mP beta rng
          = ((L.uniform_real rng).1.lt (Dbl.exp L.expq (((dS.neg).mul beta).add mP)),
             (L.uniform_real rng).2)) := by
  constructor
  · intro ha
    simp [metropolis_accept, hb, ha]
  · intro ha
    simp [metropolis_accept, hb, Dbl.gt_false_of_le ha]

/-- The statement of C2 at `beta = 1`, `mP = 0`: `dS = -1` gives `a = 1 > 0`, and `dS = 1`
gives `a = -1` with the draw `1/2` not below `exp a = 1/2`. -/
theorem metropolis_accept_finite_beta_witness :
    metropolis_accept lib0 (Dbl.fin (-1)) 0 1 5 = (true, 5) ∧
      metropolis_accept lib0 (Dbl.fin 1) 0 1 5 = (false, 6) :=
  ⟨(metropolis_accept_finite_beta lib0 (Dbl.fin (-1)) 0 1 5 rfl).1 (by decide!),
   ((metropolis_accept_finite_beta lib0 (Dbl.fin 1) 0 1 5 rfl).2 (by decide!)).trans
     (by decide!)⟩

/-- C3: acceptance is monotone in `beta`.  For `dS > 0`, `mP = 0`, a uniform
draw `u >= 0` and `0 <= beta1 <= beta2` (`beta2` possibly infinite), whenever
`metropolis_accept` accepts at `beta2` it accepts at `beta1` with the same
generator state, hence the same draw.  The library `exp` is assumed to be
monotone on finite arguments. -/
theorem metropolis_accept_mono_beta {G : Type} (L : Lib G) (hexp : Monotone L.expq)
    (dS beta1 beta2 : Dbl) (rng : G)
    (hdS : Dbl.lt 0 dS = true) (h0 : Dbl.le 0 beta1 = true) (h12 : beta1.le beta2 = true)
    (hu : Dbl.le 0 (L.uniform_real rng).1 = true)
    (hacc : (metropolis_accept L dS 0 beta2 rng).1 = true) :
    (metropolis_accept L dS 0 beta1 rng).1 = true := by
  simp only [metropolis_accept] at hacc ⊢
  generalize L.uniform_real rng = ur at hu hacc ⊢
  obtain ⟨u, g⟩ := ur
  rcases beta2 with b2 | _ | _ | _
  · rcases beta1 with b1 | _ | _ | _
    · rcases dS with d | _ | _ | _
      · have hd : 0 < d := by simpa [Dbl.lt, Dbl.zero_def] using hdS
        have hb1 : 0 ≤ b1 := by simpa [Dbl.le, Dbl.zero_def] using h0
        have hb12 : b1 ≤ b2 := by simpa [Dbl.le] using h12
        have h1 : ¬ (d * b1 < 0) := not_lt.mpr (mul_nonneg hd.le hb1)
        have h2 : ¬ (d * b2 < 0) := not_lt.mpr (mul_nonneg hd.le (hb1.trans hb12))
        have hm : L.expq (-(d * b2)) ≤ L.expq (-(d * b1)) :=
          hexp (neg_le_neg (mul_le_mul_of_nonneg_left hb12 hd.le))
        simp only [Dbl.lt, Dbl.gt, Dbl.isinf, Dbl.neg, Dbl.mul, Dbl.add, Dbl.exp,
          Dbl.zero_def, add_zero, neg_mul, Left.neg_pos_iff, decide_eq_true_eq, if_neg h1,
          if_neg h2, Bool.false_eq_true, if_false] at hacc ⊢
        rcases u with u | _ | _ | _ <;> simp_all [Dbl.lt]
        exact lt_of_lt_of_le hacc hm
      · have hb1 : 0 ≤ b1 := by simpa [Dbl.le, Dbl.zero_def] using h0
        have hb12 : b1 ≤ b2 := by simpa [Dbl.le] using h12
        exfalso
        by_cases hz : b2 = 0
        · rcases u with u | _ | _ | _ <;>
            simp [Dbl.lt, Dbl.gt, Dbl.isinf, Dbl.neg, Dbl.mul, Dbl.add, Dbl.exp,
              Dbl.zero_def, hz] at hacc
        · have hp : 0 < b2 := lt_of_le_of_ne (hb1.trans hb12) (Ne.symm hz)
          rcases u with u | _ | _ | _ <;>
            simp [Dbl.lt, Dbl.le, Dbl.gt, Dbl.isinf, Dbl.neg, Dbl.mul, Dbl.add, Dbl.exp,
              Dbl.zero_def, hz, hp] at hacc hu
          exact absurd hacc (not_lt.mpr hu)
      · simp [Dbl.lt, Dbl.zero_def] at hdS
      · simp [Dbl.lt, Dbl.zero_def] at hdS
    · simp [Dbl.le] at h12
    · simp [Dbl.le, Dbl.zero_def] at h0
    · simp [Dbl.le, Dbl.zero_def] at h0
  · rcases dS with d | _ | _ | _ <;>
      simp_all [Dbl.lt, Dbl.isinf, Dbl.zero_def]
    exact absurd hacc (not_lt.mpr hdS.le)
  · rcases dS with d | _ | _ | _ <;>
      simp_all [Dbl.lt, Dbl.isinf, Dbl.zero_def]
    exact absurd hacc (not_lt.mpr hdS.le)
  · rcases beta1 with b1 | _ | _ | _ <;> simp [Dbl.le] at h12

/-- The statement of C3 at `dS = 1`, `beta1 = 1/2`, `beta2 = 3/4` and the draw `1/2`,
which is below `exp (-3/4) = 4/7` in `lib0`. -/
theorem metropolis_accept_mono_beta_witness :
    (metropolis_accept lib0 (Dbl.fin 1) 0 (Dbl.fin (1 / 2)) 0).1 = true :=
  metropolis_accept_mono_beta lib0
    (by
      intro a b hab
      show (if a ≤ 0 then 1 / (1 - a) else 1 + a) ≤ (if b ≤ 0 then 1 / (1 - b) else 1 + b)
      split_ifs with ha hb hb
      · exact one_div_le_one_div_of_le (by linarith) (by linarith)
      · have : 1 / (1 - a) ≤ 1 := by
          rw [div_le_one (by linarith)]
          linarith
        linarith
      · linarith
      · linarith)
    (Dbl.fin 1) (Dbl.fin (1 / 2)) (Dbl.fin (3 / 4)) 0
    (by decide!) (by decide!) (by decide!) (by decide!) (by decide!)

/-! ## Generic facts about loops -/

theorem foldl_invariant {α β : Type} (P : β → Prop) (f : β → α → β) (l : List α)
    (h : ∀ b, ∀ a ∈ l, P b → P (f b a)) (b : β) (hb : P b) : P (l.foldl f b) := by
  induction l generalizing b with
  | nil => exact hb
  | cons a l ih =>
    exact ih (fun b a ha => h b a (List.mem_cons_of_mem _ ha)) (f b a)
      (h b a (List.mem_cons_self _ _) hb)

theorem iterate_invariant {β : Type} (P : β → Prop) (f : β → β)
    (h : ∀ b, P b → P (f b)) (n : Nat) (b : β) (hb : P b) : P (f^[n] b) := by
  induction n generalizing b with
  | zero => exact hb
  | succ n ih => exact ih (f b) (h b hb)

/-! ## Sweeps with no iteration -/

/-- C4: a sweep invoked with `niter = 0`, sequential or parallel, returns
`(0, 0, 0)`, makes no call on the model state (in particular no
`perform_move`) and leaves `node_state(v)` unchanged for every vertex `v`. -/
theorem sweep_niter_zero {σ G : Type} (L : Lib G) (M : MCMCState σ G) (st : σ)
    (vlist : List Nat) (rng : G) (h : M.niter = 0) :
    (mcmc_sweep L M st vlist rng).ret = (0, 0, 0) ∧
    (mcmc_sweep L M st vlist rng).calls = [] ∧
    (∀ v, M.node_state (mcmc_sweep L M st vlist rng).state v = M.node_state st v) ∧
    (mcmc_sweep_parallel L M st vlist rng).ret = (0, 0, 0) ∧
    (mcmc_sweep_parallel L M st vlist rng).calls = [] ∧
    (∀ v, M.node_state (mcmc_sweep_parallel L M st vlist rng).state v = M.node_state st v) := by
  simp [mcmc_sweep, mcmc_sweep_parallel, h]

/-- The statement of C4 on `par0` with `niter` set to 0. -/
theorem sweep_niter_zero_witness :
    (mcmc_sweep lib0 { par0 with niter := 0 } [0, 0] [0, 1] 1).ret = (0, 0, 0) ∧
    (mcmc_sweep_parallel lib0 { par0 with niter := 0 } [0, 0] [0, 1] 1).ret = (0, 0, 0) :=
  have h := sweep_niter_zero lib0 { par0 with niter := 0 } [0, 0] [0, 1] 1 rfl
  ⟨h.1, h.2.2.2.1⟩

/-! ## Proposals for a sole member -/

/-- C5: with `allow_empty = false`, `move_proposal` for a vertex `v` that is the
sole member of its group (`is_last(v)` in the MCMC state,
`virtual_remove_size(v) = 0` in the multicanonical state) returns the current
label `b[v]`, whatever block `sample_block` would return. -/
theorem move_proposal_sole_member {σ G : Type} (B : BlockState σ G) (P : BlockParams)
    (st : σ) (v : Nat) (rng : G) (hallow : P.allow_empty = false) :
    (B.is_last st v = true → (MCMCBlockState.move_proposal B P st v rng).1 = B.b st v) ∧
    (B.virtual_remove_size st v = 0 →
      (MulticanonicalBlockState.move_proposal B P st v rng).1 = B.b st v) := by
  constructor
  · intro h
    simp [MCMCBlockState.move_proposal, hallow, h]
  · intro h
    simp only [MulticanonicalBlockState.move_proposal, hallow, h]
    split_ifs <;> simp_all

/-- The statement of C5 on the labels `[0, 1, 1]`, where vertex 0 is alone in
group 0. -/
theorem move_proposal_sole_member_witness :
    (MCMCBlockState.move_proposal block0 params0 [0, 1, 1] 0 1).1 = 0 ∧
    (MulticanonicalBlockState.move_proposal block0 params0 [0, 1, 1] 0 1).1 = 0 :=
  have h := move_proposal_sole_member block0 params0 [0, 1, 1] 0 1 rfl
  ⟨h.1 (by decide), h.2 (by decide)⟩
/-! ## The sequential sweep on a sole occupant -/

/-- C6, as stated, fails: in the state `[0, 1, 1]` vertex 0 is the sole
occupant of group 0 and `allow_empty = false`, yet the sequential sweep over
`[0]` calls `virtual_move_dS(0, 0)` and `perform_move(0, 0)` and returns
attempted weight 1 and accepted weight 1. -/
theorem mcmc_sweep_sole_occupant_visited :
    block0.is_last [0, 1, 1] 0 = true ∧
    (mcmc_sweep lib0 seq1 [0, 1, 1] [0] 0).calls
      = [Call.move_proposal 0, Call.virtual_move_dS 0 0, Call.perform_move 0 0,
         Call.step 0 0] ∧
    (mcmc_sweep lib0 seq1 [0, 1, 1] [0] 0).ret = (0, 1, 1) := by
  decide!

/-- C6, amended: in the sequential Metropolis sweep with `MCMCBlockState`, a
vertex `v` that is the sole occupant of its group while `allow_empty = false`
is not skipped on that account.  Unless `skip_node(v)` holds or `b[v]` is the
null-move sentinel, the visit calls `move_proposal(v)`, which returns `b[v]`
and hands the generator back untouched, whatever the generator is (so that
`metropolis_accept` receives the generator left by the choice of `v`), then
`virtual_move_dS(v, b[v])`, and adds `node_weight(v)` to the attempted weight;
the only move it may commit is `perform_move(v, b[v])`, into the group `v`
already occupies. -/
theorem mcmc_sweep_visit_sole_occupant {σ G : Type} (L : Lib G) (B : BlockState σ G)
    (P : BlockParams) (H : SweepHooks σ) (vlist : List Nat) (acc : SweepAcc σ G) (x v : Nat)
    (hv : v = (if P.sequential then (x, acc.rng) else L.uniform_sample vlist acc.rng).1)
    (hallow : P.allow_empty = false) (hlast : B.is_last acc.state v = true)
    (hskip : H.skip_node acc.state v = false) (hnull : B.b acc.state v ≠ H.null_move) :
    (mcmc_sweep_visit L (MCMCBlockState.toMCMCState B P H) vlist acc x).nattempts
      = size_add acc.nattempts (H.node_weight acc.state v) ∧
    ((mcmc_sweep_visit L (MCMCBlockState.toMCMCState B P H) vlist acc x).calls
        = acc.calls ++ [Call.move_proposal v, Call.virtual_move_dS v (B.b acc.state v),
            Call.step v (B.b acc.state v)] ∨
     (mcmc_sweep_visit L (MCMCBlockState.toMCMCState B P H) vlist acc x).calls
        = acc.calls ++ [Call.move_proposal v, Call.virtual_move_dS v (B.b acc.state v),
            Call.perform_move v (B.b acc.state v), Call.step v (B.b acc.state v)]) ∧
    (∀ g, (MCMCBlockState.toMCMCState B P H).move_proposal acc.state v g
      = (B.b acc.state v, g)) ∧
    (mcmc_sweep_visit L (MCMCBlockState.toMCMCState B P H) vlist acc x).rng
      = (metropolis_accept L
          (MCMCBlockState.virtual_move_dS B P acc.state v (B.b acc.state v)).1
          (MCMCBlockState.virtual_move_dS B P acc.state v (B.b acc.state v)).2 P.beta
          (if P.sequential then (x, acc.rng) else L.uniform_sample vlist acc.rng).2).2 := by
  simp only [mcmc_sweep_visit, MCMCBlockState.toMCMCState]
  generalize (if P.sequential = true then (x, acc.rng) else L.uniform_sample vlist acc.rng)
    = pk at hv ⊢
  subst hv
  have hp : ∀ g, MCMCBlockState.move_proposal B P acc.state pk.1 g
      = (B.b acc.state pk.1, g) := by
    intro g
    simp [MCMCBlockState.move_proposal, hallow, hlast]
  simp only [hskip, hp, hnull, Bool.false_eq_true, if_false]
  cases (metropolis_accept L
      (MCMCBlockState.virtual_move_dS B P acc.state pk.1 (B.b acc.state pk.1)).1
      (MCMCBlockState.virtual_move_dS B P acc.state pk.1 (B.b acc.state pk.1)).2
      P.beta pk.2).1 <;> simp

/-- The amended C6 on the labels `[0, 1, 1]`, visiting vertex 0: the attempted
weight grows by 1 and `move_proposal` returns label 0 with the generator 7 it
was given. -/
theorem mcmc_sweep_visit_sole_occupant_witness :
    (mcmc_sweep_visit lib0 (MCMCBlockState.toMCMCState block0 params0 hooks0) [0]
        { state := [0, 1, 1], rng := 0, S := 0, nattempts := 0, nmoves := 0, calls := [] }
        0).nattempts = size_add 0 1 ∧
    (MCMCBlockState.toMCMCState block0 params0 hooks0).move_proposal [0, 1, 1] 0 7
      = (block0.b [0, 1, 1] 0, 7) :=
  have h := mcmc_sweep_visit_sole_occupant lib0 block0 params0 hooks0 [0]
    { state := [0, 1, 1], rng := 0, S := 0, nattempts := 0, nmoves := 0, calls := [] }
    0 0 rfl rfl (by decide) rfl (by decide)
  ⟨h.1, h.2.2.1 7⟩

/-! ## The reconciliation pass -/

/-- C7, as stated, fails: at infinite `beta`, in the parallel sweep of `par0`
from the labels `[0, 0]`, the recorded move of vertex 1 to group 2 is
re-evaluated in the state `[1, 0]` reached after vertex 0 has moved; the
re-evaluated cost is 0, on which `metropolis_accept` answers false, and the
move is committed all the same. -/
theorem reconcile_commits_zero_cost :
    par0.beta = Dbl.pinf ∧
    (mcmc_sweep_parallel lib0 par0 [0, 0] [0, 1] 1).calls
      = [Call.move_proposal 0, Call.virtual_move_dS 0 1,
         Call.move_proposal 1, Call.virtual_move_dS 1 2,
         Call.virtual_move_dS 0 1, Call.perform_move 0 1,
         Call.virtual_move_dS 1 2, Call.perform_move 1 2] ∧
    par0.perform_move [0, 0] 0 1 = [1, 0] ∧
    par0.virtual_move_dS [1, 0] 1 2 = (0, 0) ∧
    (metropolis_accept lib0 0 0 par0.beta 3).1 = false ∧
    (mcmc_sweep_parallel lib0 par0 [0, 0] [0, 1] 1).state = [1, 2] := by
  decide!

/-- C7, amended: in the reconciliation pass a vertex without a recorded move is
left alone; for a vertex `v` with a recorded move to `s` the cost is
re-evaluated with `virtual_move_dS(v, s)` on the current state, and the move is
committed (`perform_move(v, s)` is called and the re-evaluated cost is added to
`S`) unless `beta` is infinite and the re-evaluated cost is `> 0`.  So at
infinite `beta` a recorded move is committed exactly when its re-evaluated
cost is not `> 0`, and at finite `beta` every recorded move is committed. -/
theorem reconcile_visit_spec {σ G : Type} (M : MCMCState σ G) (bm : Nat → Nat × Dbl)
    (acc : ReconAcc σ) (v : Nat) :
    ((bm v).2.ne Dbl.max = false →
      (reconcile_visit M bm acc v).calls = acc.calls ∧
      (reconcile_visit M bm acc v).state = acc.state ∧
      (reconcile_visit M bm acc v).S = acc.S) ∧
    ((bm v).2.ne Dbl.max = true →
      (((M.virtual_move_dS acc.state v (bm v).1).1.gt 0 = true ∧ M.beta.isinf = true) →
        (reconcile_visit M bm acc v).calls
          = acc.calls ++ [Call.virtual_move_dS v (bm v).1] ∧
        (reconcile_visit M bm acc v).state = acc.state ∧
        (reconcile_visit M bm acc v).S = acc.S) ∧
      (¬ ((M.virtual_move_dS acc.state v (bm v).1).1.gt 0 = true ∧ M.beta.isinf = true) →
        (reconcile_visit M bm acc v).calls
          = acc.calls ++ [Call.virtual_move_dS v (bm v).1, Call.perform_move v (bm v).1] ∧
        (reconcile_visit M bm acc v).state = M.perform_move acc.state v (bm v).1 ∧
        (reconcile_visit M bm acc v).S
          = acc.S.add (M.virtual_move_dS acc.state v (bm v).1).1)) := by
  refine ⟨fun h => ?_, fun h => ⟨fun h1 => ?_, fun h1 => ?_⟩⟩
  · simp [reconcile_visit, h]
  · simp [reconcile_visit, h, h1.1, h1.2]
  · have h2 : ((M.virtual_move_dS acc.state v (bm v).1).1.gt 0 && M.beta.isinf) = false := by
      simpa [Bool.and_eq_true] using h1
    simp [reconcile_visit, h, h2]

/-- The amended C7 on `par0` in the state `[1, 0]`, for the recorded move of
vertex 1 to group 2, whose re-evaluated cost is 0. -/
theorem reconcile_visit_spec_witness :
    (reconcile_visit par0 (fun _ => (2, Dbl.fin (-1)))
        { state := [1, 0], S := 0, nmoves := 0, nattempts := 0, calls := [] } 1).calls
      = [] ++ [Call.virtual_move_dS 1 2, Call.perform_move 1 2] :=
  (((reconcile_visit_spec par0 (fun _ => (2, Dbl.fin (-1)))
      { state := [1, 0], S := 0, nmoves := 0, nattempts := 0, calls := [] } 1).2
        (by decide!)).2 (by decide!)).1

/-! ## The attempted weight returned by the parallel sweep -/

theorem mcmc_sweep_parallel_iter_nattempts {σ G : Type} (L : Lib G) (M : MCMCState σ G)
    (vlist : List Nat) (acc : ParAcc σ G) :
    (mcmc_sweep_parallel_iter L M vlist acc).nattempts = acc.nattempts := rfl

/-- C8: the second component returned by `mcmc_sweep_parallel` is 0 on every
input, because the reconciliation pass increments a counter declared inside
the loop body.  On `par0` with `niter = 1` and the vertex list `[0, 1]` the
sweep commits two moves and returns `(-1, 0, 2)`: the attempted weight is
neither positive nor at least the accepted weight. -/
theorem mcmc_sweep_parallel_nattempts_zero :
    (∀ (σ G : Type) (L : Lib G) (M : MCMCState σ G) (st : σ) (vlist : List Nat) (rng : G),
      (mcmc_sweep_parallel L M st vlist rng).ret.2.1 = 0) ∧
    par0.niter = 1 ∧
    (mcmc_sweep_parallel lib0 par0 [0, 0] [0, 1] 1).ret = (Dbl.fin (-1), 0, 2) := by
  refine ⟨?_, rfl, by decide!⟩
  intro σ G L M st vlist rng
  exact iterate_invariant (fun a : ParAcc σ G => a.nattempts = 0)
    (mcmc_sweep_parallel_iter L M vlist)
    (fun b hb => (mcmc_sweep_parallel_iter_nattempts L M vlist b).trans hb) M.niter _ rfl

/-! ## Vertices of weight zero in the parallel sweep -/

theorem best_move_reset_fold {σ G : Type} (M : MCMCState σ G) (st : σ) (l : List Nat)
    (bm : Nat → Nat × Dbl) (v : Nat) :
    (l.foldl (best_move_reset M st) bm) v
      = if v ∈ l then (M.node_state st v, Dbl.max) else bm v := by
  induction l generalizing bm with
  | nil => simp
  | cons a l ih =>
    rw [List.foldl_cons, ih]
    by_cases hl : v ∈ l
    · simp [hl]
    · by_cases ha : v = a
      · subst ha
        simp [hl, best_move_reset]
      · simp [hl, ha, best_move_reset, Function.update_noteq ha]

theorem calls_append_ok (v : Nat) (cs ds : List Call) (hc : ∀ c ∈ cs, c.vertex ≠ v)
    (hd : ∀ c ∈ ds, c.vertex ≠ v) : ∀ c ∈ cs ++ ds, c.vertex ≠ v := by
  intro c hcm
  rcases List.mem_append.mp hcm with h | h
  · exact hc c h
  · exact hd c h

theorem propose_visit_zero_weight {σ G : Type} (L : Lib G) (M : MCMCState σ G) (st : σ)
    (v : Nat) (hw : M.node_weight st v = 0) (acc : PropAcc G) (u : Nat)
    (hc : ∀ c ∈ acc.calls, c.vertex ≠ v) :
    (∀ c ∈ (propose_visit L M st acc u).calls, c.vertex ≠ v) ∧
    (propose_visit L M st acc u).best_move v = acc.best_move v := by
  by_cases huv : u = v
  · subst huv
    have h : propose_visit L M st acc u = acc := by
      simp only [propose_visit, hw, if_true]
    rw [h]
    exact ⟨hc, rfl⟩
  · have hvu : v ≠ u := fun h => huv h.symm
    simp only [propose_visit]
    split_ifs
    · exact ⟨hc, rfl⟩
    · refine ⟨calls_append_ok v _ _ hc ?_, rfl⟩
      intro c hcm
      simp only [List.mem_singleton] at hcm
      subst hcm
      exact huv
    · refine ⟨calls_append_ok v _ _ (calls_append_ok v _ _ hc ?_) ?_,
        Function.update_noteq hvu _ _⟩
      · intro c hcm
        simp only [List.mem_singleton] at hcm
        subst hcm
        exact huv
      · intro c hcm
        simp only [List.mem_singleton] at hcm
        subst hcm
        exact huv
    · refine ⟨calls_append_ok v _ _ (calls_append_ok v _ _ hc ?_) ?_, rfl⟩
      · intro c hcm
        simp only [List.mem_singleton] at hcm
        subst hcm
        exact huv
      · intro c hcm
        simp only [List.mem_singleton] at hcm
        subst hcm
        exact huv

theorem propose_fold_zero_weight {σ G : Type} (L : Lib G) (M : MCMCState σ G) (st : σ)
    (v : Nat) (hw : M.node_weight st v = 0) (l : List Nat) (acc : PropAcc G)
    (hc : ∀ c ∈ acc.calls, c.vertex ≠ v) :
    (∀ c ∈ (l.foldl (propose_visit L M st) acc).calls, c.vertex ≠ v) ∧
    (l.foldl (propose_visit L M st) acc).best_move v = acc.best_move v :=
  foldl_invariant
    (fun a : PropAcc G => (∀ c ∈ a.calls, c.vertex ≠ v) ∧ a.best_move v = acc.best_move v)
    (propose_visit L M st) l
    (fun b u _ hb =>
      ⟨(propose_visit_zero_weight L M st v hw b u hb.1).1,
       (propose_visit_zero_weight L M st v hw b u hb.1).2.trans hb.2⟩)
    acc ⟨hc, rfl⟩

theorem reconcile_visit_calls {σ G : Type} (M : MCMCState σ G) (bm : Nat → Nat × Dbl)
    (v : Nat) (acc : ReconAcc σ) (u : Nat) (hbm : u = v → (bm v).2 = Dbl.max)
    (hc : ∀ c ∈ acc.calls, c.vertex ≠ v) :
    ∀ c ∈ (reconcile_visit M bm acc u).calls, c.vertex ≠ v := by
  by_cases huv : u = v
  · subst huv
    have hm : (bm u).2.ne Dbl.max = false := by
      rw [hbm rfl]
      decide!
    simp only [reconcile_visit, hm]
    exact hc
  · simp only [reconcile_visit]
    split_ifs
    · refine calls_append_ok v _ _ hc ?_
      intro c hcm
      simp only [List.mem_singleton] at hcm
      subst hcm
      exact huv
    · refine calls_append_ok v _ _ (calls_append_ok v _ _ hc ?_) ?_
      · intro c hcm
        simp only [List.mem_singleton] at hcm
        subst hcm
        exact huv
      · intro c hcm
        simp only [List.mem_singleton] at hcm
        subst hcm
        exact huv
    · exact hc

theorem reconcile_visit_node_state {σ G : Type} (M : MCMCState σ G) (bm : Nat → Nat × Dbl)
    (v : Nat) (acc : ReconAcc σ) (u : Nat) (hbm : u = v → (bm v).2 = Dbl.max)
    (hframe : ∀ s u t, u ≠ v → M.node_state (M.perform_move s u t) v = M.node_state s v) :
    M.node_state (reconcile_visit M bm acc u).state v = M.node_state acc.state v := by
  by_cases huv : u = v
  · subst huv
    have hm : (bm u).2.ne Dbl.max = false := by
      rw [hbm rfl]
      decide!
    simp only [reconcile_visit, hm]
    rfl
  · simp only [reconcile_visit]
    split_ifs
    · rfl
    · exact hframe _ _ _ huv
    · rfl

theorem parallel_iter_best_move {σ G : Type} (L : Lib G) (M : MCMCState σ G)
    (vlist : List Nat) (acc : ParAcc σ G) (v : Nat) (hw : M.node_weight acc.state v = 0)
    (hc : ∀ c ∈ acc.calls, c.vertex ≠ v) (hv : v ∈ vlist) :
    (mcmc_sweep_parallel_iter L M vlist acc).best_move v
      = (M.node_state acc.state v, Dbl.max) := by
  simp only [mcmc_sweep_parallel_iter]
  rw [(propose_fold_zero_weight L M acc.state v hw vlist _ hc).2]
  simp only [best_move_reset_fold, hv, if_true]

theorem parallel_iter_calls {σ G : Type} (L : Lib G) (M : MCMCState σ G)
    (vlist : List Nat) (acc : ParAcc σ G) (v : Nat) (hw : M.node_weight acc.state v = 0)
    (hc : ∀ c ∈ acc.calls, c.vertex ≠ v) :
    ∀ c ∈ (mcmc_sweep_parallel_iter L M vlist acc).calls, c.vertex ≠ v := by
  have hbm : ∀ u ∈ vlist, u = v →
      ((mcmc_sweep_parallel_iter L M vlist acc).best_move v).2 = Dbl.max := by
    intro u hu huv
    rw [parallel_iter_best_move L M vlist acc v hw hc (huv ▸ hu)]
  exact foldl_invariant (fun a : ReconAcc σ => ∀ c ∈ a.calls, c.vertex ≠ v)
    (reconcile_visit M (mcmc_sweep_parallel_iter L M vlist acc).best_move) vlist
    (fun b u hu hb => reconcile_visit_calls M _ v b u (hbm u hu) hb) _
    (propose_fold_zero_weight L M acc.state v hw vlist _ hc).1

theorem parallel_iter_node_state {σ G : Type} (L : Lib G) (M : MCMCState σ G)
    (vlist : List Nat) (acc : ParAcc σ G) (v : Nat) (hw : M.node_weight acc.state v = 0)
    (hc : ∀ c ∈ acc.calls, c.vertex ≠ v)
    (hframe : ∀ s u t, u ≠ v → M.node_state (M.perform_move s u t) v = M.node_state s v) :
    M.node_state (mcmc_sweep_parallel_iter L M vlist acc).state v
      = M.node_state acc.state v := by
  have hbm : ∀ u ∈ vlist, u = v →
      ((mcmc_sweep_parallel_iter L M vlist acc).best_move v).2 = Dbl.max := by
    intro u hu huv
    rw [parallel_iter_best_move L M vlist acc v hw hc (huv ▸ hu)]
  exact foldl_invariant
    (fun a : ReconAcc σ => M.node_state a.state v = M.node_state acc.state v)
    (reconcile_visit M (mcmc_sweep_parallel_iter L M vlist acc).best_move) vlist
    (fun b u hu hb => (reconcile_visit_node_state M _ v b u (hbm u hu) hframe).trans hb) _ rfl

/-- C10: in `mcmc_sweep_parallel` a vertex `v` whose `node_weight` is 0 is
skipped: the sweep makes no call for `v` (no `move_proposal`, no
`virtual_move_dS`, no `perform_move`).  When `perform_move` on another vertex
leaves the label of `v` alone, the label of `v` after the sweep is its label
before, and, if `v` is in the vertex list and at least one sweep is run, its
`best_move` entry is `(node_state(v), numeric_limits<double>::max())`. -/
theorem mcmc_sweep_parallel_zero_weight {σ G : Type} (L : Lib G) (M : MCMCState σ G)
    (st : σ) (vlist : List Nat) (rng : G) (v : Nat) (hw : ∀ s, M.node_weight s v = 0) :
    (∀ c ∈ (mcmc_sweep_parallel L M st vlist rng).calls, c.vertex ≠ v) ∧
    ((∀ s u t, u ≠ v → M.node_state (M.perform_move s u t) v = M.node_state s v) →
      M.node_state (mcmc_sweep_parallel L M st vlist rng).state v = M.node_state st v ∧
      (v ∈ vlist → 0 < M.niter →
        (mcmc_sweep_parallel L M st vlist rng).best_move v
          = (M.node_state st v, Dbl.max))) := by
  have hcalls := iterate_invariant (fun a : ParAcc σ G => ∀ c ∈ a.calls, c.vertex ≠ v)
    (mcmc_sweep_parallel_iter L M vlist)
    (fun b hb => parallel_iter_calls L M vlist b v (hw _) hb)
  refine ⟨hcalls M.niter _ (by simp), ?_⟩
  intro hframe
  have hboth := iterate_invariant
    (fun a : ParAcc σ G =>
      (∀ c ∈ a.calls, c.vertex ≠ v) ∧ M.node_state a.state v = M.node_state st v)
    (mcmc_sweep_parallel_iter L M vlist)
    (fun b hb => ⟨parallel_iter_calls L M vlist b v (hw _) hb.1,
      (parallel_iter_node_state L M vlist b v (hw _) hb.1 hframe).trans hb.2⟩)
  refine ⟨(hboth M.niter _ ⟨by simp, rfl⟩).2, ?_⟩
  intro hv hn
  obtain ⟨n, hn1⟩ : ∃ n, M.niter = n + 1 := ⟨M.niter - 1, by omega⟩
  simp only [mcmc_sweep_parallel, hn1, Function.iterate_succ_apply']
  have h := hboth n
    { state := st, rng := rng, best_move := fun _ => (0, 0), S := 0, nmoves := 0,
      nattempts := 0, calls := [] } ⟨by simp, rfl⟩
  rw [parallel_iter_best_move L M vlist _ v (hw _) h.1 hv, h.2]

/-- The statement of C10 on `parw`, where vertex 0 has weight 0. -/
theorem mcmc_sweep_parallel_zero_weight_witness :
    (∀ c ∈ (mcmc_sweep_parallel lib0 parw [0, 0] [0, 1] 1).calls, c.vertex ≠ 0) ∧
    parw.node_state (mcmc_sweep_parallel lib0 parw [0, 0] [0, 1] 1).state 0
      = parw.node_state [0, 0] 0 :=
  have h := mcmc_sweep_parallel_zero_weight lib0 parw [0, 0] [0, 1] 1 0 (fun _ => rfl)
  ⟨h.1, (h.2 (by
    intro s u t hu
    show (s.set u t).getD 0 0 = s.getD 0 0
    simp [List.getD_eq_getElem?_getD, List.getElem?_set_ne hu])).1⟩

/-! ## One greedy parallel sweep against one sequential sweep -/

theorem metropolis_accept_of_isinf {G : Type} (L : Lib G) (dS mP beta : Dbl) (rng : G)
    (hb : beta.isinf = true) :
    metropolis_accept L dS mP beta rng = (dS.lt 0, rng) := by
  simp [metropolis_accept, hb]

theorem propose_visit_other {σ G : Type} (L : Lib G) (M : MCMCState σ G) (st : σ)
    (acc : PropAcc G) (u w : Nat) (h : w ≠ u) :
    (propose_visit L M st acc u).best_move w = acc.best_move w := by
  simp only [propose_visit]
  split_ifs
  · rfl
  · rfl
  · exact Function.update_noteq h _ _
  · rfl

theorem propose_fold_other {σ G : Type} (L : Lib G) (M : MCMCState σ G) (st : σ)
    (l : List Nat) (acc : PropAcc G) (w : Nat) (h : w ∉ l) :
    (l.foldl (propose_visit L M st) acc).best_move w = acc.best_move w :=
  foldl_invariant (fun a : PropAcc G => a.best_move w = acc.best_move w)
    (propose_visit L M st) l
    (fun b u hu hb =>
      (propose_visit_other L M st b u w (fun e => h (e ▸ hu))).trans hb) acc rfl

theorem propose_visit_greedy {σ G : Type} (L : Lib G) (M : MCMCState σ G) (st : σ)
    (acc : PropAcc G) (v : Nat) (hbeta : M.beta.isinf = true)
    (hneg : (M.move_proposal st v acc.rng).1 ≠ M.null_group →
      (M.virtual_move_dS st v (M.move_proposal st v acc.rng).1).1.lt 0 = true)
    (hw : M.node_weight st v = 1) :
    (propose_visit L M st acc v).rng = (M.move_proposal st v acc.rng).2 ∧
    (propose_visit L M st acc v).best_move v
      = if (M.move_proposal st v acc.rng).1 = M.null_group then acc.best_move v
        else ((M.move_proposal st v acc.rng).1,
              (M.virtual_move_dS st v (M.move_proposal st v acc.rng).1).1) := by
  simp only [propose_visit, hw, one_ne_zero, if_false,
    metropolis_accept_of_isinf L _ _ _ _ hbeta]
  by_cases hn : (M.move_proposal st v acc.rng).1 = M.null_group
  · simp [hn]
  · simp [hn, hneg hn]

theorem mcmc_sweep_visit_greedy {σ G : Type} (L : Lib G) (M : MCMCState σ G)
    (vlist : List Nat) (acc : SweepAcc σ G) (v : Nat) (hbeta : M.beta.isinf = true)
    (hneg : (M.move_proposal acc.state v acc.rng).1 ≠ M.null_move →
      (M.virtual_move_dS acc.state v (M.move_proposal acc.state v acc.rng).1).1.lt 0 = true)
    (hw : ∀ s, M.node_weight s v = 1) (hskip : ∀ s, M.skip_node s v = false)
    (hstep : ∀ s v t, M.step s v t = s) (hseq : M.sequential = true) :
    (mcmc_sweep_visit L M vlist acc v).rng = (M.move_proposal acc.state v acc.rng).2 ∧
    (mcmc_sweep_visit L M vlist acc v).state
      = (if (M.move_proposal acc.state v acc.rng).1 = M.null_move then acc.state
         else M.perform_move acc.state v (M.move_proposal acc.state v acc.rng).1) ∧
    (mcmc_sweep_visit L M vlist acc v).S
      = (if (M.move_proposal acc.state v acc.rng).1 = M.null_move then acc.S
         else acc.S.add
          (M.virtual_move_dS acc.state v (M.move_proposal acc.state v acc.rng).1).1) ∧
    (mcmc_sweep_visit L M vlist acc v).nmoves
      = (if (M.move_proposal acc.state v acc.rng).1 = M.null_move then acc.nmoves
         else size_add acc.nmoves 1) := by
  simp only [mcmc_sweep_visit, hseq, if_true, hskip, Bool.false_eq_true, if_false,
    metropolis_accept_of_isinf L _ _ _ _ hbeta, hw, hstep]
  by_cases hn : (M.move_proposal acc.state v acc.rng).1 = M.null_move
  · simp [hn]
  · simp [hn, hneg hn]

theorem reconcile_visit_greedy {σ G : Type} (M : MCMCState σ G) (bm : Nat → Nat × Dbl)
    (acc : ReconAcc σ) (v : Nat) :
    ((bm v).2 = Dbl.max →
      (reconcile_visit M bm acc v).state = acc.state ∧
      (reconcile_visit M bm acc v).S = acc.S ∧
      (reconcile_visit M bm acc v).nmoves = acc.nmoves) ∧
    ((bm v).2.lt 0 = true → (M.virtual_move_dS acc.state v (bm v).1).1.lt 0 = true →
      (reconcile_visit M bm acc v).state = M.perform_move acc.state v (bm v).1 ∧
      (reconcile_visit M bm acc v).S
        = acc.S.add (M.virtual_move_dS acc.state v (bm v).1).1 ∧
      (reconcile_visit M bm acc v).nmoves = size_add acc.nmoves 1) := by
  constructor
  · intro h
    have hm : (bm v).2.ne Dbl.max = false := by
      rw [h]
      decide!
    simp [reconcile_visit, hm]
  · intro h h1
    simp [reconcile_visit, Dbl.ne_max_of_lt_zero h, Dbl.gt_false_of_lt h1]

theorem moves_negative_of_forall {σ G : Type} (M : MCMCState σ G) (st0 : σ)
    (hneg : ∀ s v t, (M.virtual_move_dS s v t).1.lt 0 = true) (l : List Nat) (s : σ) (g : G) :
    moves_negative M st0 l s g = true := by
  induction l generalizing s g with
  | nil => rfl
  | cons v l ih =>
    simp only [moves_negative, hneg, ih, Bool.and_self, ite_self]

theorem greedy_folds_agree {σ G : Type} (L : Lib G) (M : MCMCState σ G) (st0 : σ)
    (vlist : List Nat) (bmF : Nat → Nat × Dbl)
    (hbeta : M.beta.isinf = true)
    (hnull : M.null_move = M.null_group)
    (hprop : ∀ s t v g, M.move_proposal s v g = M.move_proposal t v g)
    (hstep : ∀ s v t, M.step s v t = s) (hseq : M.sequential = true)
    (l : List Nat) (hnodup : l.Nodup)
    (hw : ∀ s, ∀ v ∈ l, M.node_weight s v = 1)
    (hskip : ∀ s, ∀ v ∈ l, M.skip_node s v = false)
    (sacc : SweepAcc σ G) (pacc : PropAcc G) (racc : ReconAcc σ)
    (hneg : moves_negative M st0 l sacc.state pacc.rng = true)
    (hrng : pacc.rng = sacc.rng) (hstate : racc.state = sacc.state)
    (hS : racc.S = sacc.S) (hnm : racc.nmoves = sacc.nmoves)
    (hmax : ∀ v ∈ l, (pacc.best_move v).2 = Dbl.max)
    (hF : ∀ v ∈ l, bmF v = (l.foldl (propose_visit L M st0) pacc).best_move v) :
    (l.foldl (reconcile_visit M bmF) racc).state
        = (l.foldl (mcmc_sweep_visit L M vlist) sacc).state ∧
    (l.foldl (reconcile_visit M bmF) racc).S
        = (l.foldl (mcmc_sweep_visit L M vlist) sacc).S ∧
    (l.foldl (reconcile_visit M bmF) racc).nmoves
        = (l.foldl (mcmc_sweep_visit L M vlist) sacc).nmoves ∧
    (l.foldl (propose_visit L M st0) pacc).rng
        = (l.foldl (mcmc_sweep_visit L M vlist) sacc).rng := by
  induction l generalizing sacc pacc racc with
  | nil => exact ⟨hstate, hS, hnm, hrng⟩
  | cons v l ih =>
    have hvl : v ∉ l := (List.nodup_cons.mp hnodup).1
    have hnd : l.Nodup := (List.nodup_cons.mp hnodup).2
    have hwv := fun s => hw s v (List.mem_cons_self _ _)
    have hsv := fun s => hskip s v (List.mem_cons_self _ _)
    have hpe : M.move_proposal sacc.state v sacc.rng = M.move_proposal st0 v pacc.rng := by
      rw [hrng]
      exact hprop _ _ _ _
    have hFv : bmF v = (propose_visit L M st0 pacc v).best_move v := by
      rw [hF v (List.mem_cons_self _ _), List.foldl_cons]
      exact propose_fold_other L M st0 l _ v hvl
    have hmax1 : ∀ w ∈ l, ((propose_visit L M st0 pacc v).best_move w).2 = Dbl.max := by
      intro w hwl
      have hwv : w ≠ v := fun e => hvl (e ▸ hwl)
      rw [propose_visit_other L M st0 pacc v w hwv]
      exact hmax w (List.mem_cons_of_mem _ hwl)
    have hF1 : ∀ w ∈ l, bmF w
        = (l.foldl (propose_visit L M st0) (propose_visit L M st0 pacc v)).best_move w := by
      intro w hwl
      rw [hF w (List.mem_cons_of_mem _ hwl), List.foldl_cons]
    simp only [List.foldl_cons]
    rw [moves_negative] at hneg
    by_cases hn : (M.move_proposal st0 v pacc.rng).1 = M.null_group
    · simp only [hn, if_true] at hneg
      obtain ⟨p1, p2⟩ := propose_visit_greedy L M st0 pacc v hbeta
        (fun h => absurd hn h) (hwv st0)
      obtain ⟨s1, s2, s3, s4⟩ := mcmc_sweep_visit_greedy L M vlist sacc v hbeta
        (fun h => absurd (by rw [hpe, hnull]; exact hn) h) hwv hsv hstep hseq
      rw [hpe] at s1 s2 s3 s4
      rw [hnull] at s2 s3 s4
      rw [if_pos hn] at s2 s3 s4 p2
      have hmx : (bmF v).2 = Dbl.max := by
        rw [hFv, p2]
        exact hmax v (List.mem_cons_self _ _)
      obtain ⟨r1, r2, r3⟩ := (reconcile_visit_greedy M bmF racc v).1 hmx
      refine ih hnd (fun s w hwl => hw s w (List.mem_cons_of_mem _ hwl))
        (fun s w hwl => hskip s w (List.mem_cons_of_mem _ hwl))
        (mcmc_sweep_visit L M vlist sacc v) (propose_visit L M st0 pacc v)
        (reconcile_visit M bmF racc v) ?_ (p1.trans s1.symm) ?_ ?_ ?_ hmax1 hF1
      · rw [s2, p1]
        exact hneg
      · rw [r1, s2, hstate]
      · rw [r2, s3, hS]
      · rw [r3, s4, hnm]
    · simp only [hn, if_false, Bool.and_eq_true] at hneg
      obtain ⟨⟨hn1, hn2⟩, hn3⟩ := hneg
      obtain ⟨p1, p2⟩ := propose_visit_greedy L M st0 pacc v hbeta (fun _ => hn1) (hwv st0)
      obtain ⟨s1, s2, s3, s4⟩ := mcmc_sweep_visit_greedy L M vlist sacc v hbeta
        (fun _ => by rw [hpe]; exact hn2) hwv hsv hstep hseq
      rw [hpe] at s1 s2 s3 s4
      rw [hnull] at s2 s3 s4
      rw [if_neg hn] at s2 s3 s4 p2
      have hb : bmF v = ((M.move_proposal st0 v pacc.rng).1,
          (M.virtual_move_dS st0 v (M.move_proposal st0 v pacc.rng).1).1) := by
        rw [hFv, p2]
      have hlt : (bmF v).2.lt 0 = true := by
        rw [hb]
        exact hn1
      have hlt2 : (M.virtual_move_dS racc.state v (bmF v).1).1.lt 0 = true := by
        rw [hb, hstate]
        exact hn2
      obtain ⟨r1, r2, r3⟩ := (reconcile_visit_greedy M bmF racc v).2 hlt hlt2
      refine ih hnd (fun s w hwl => hw s w (List.mem_cons_of_mem _ hwl))
        (fun s w hwl => hskip s w (List.mem_cons_of_mem _ hwl))
        (mcmc_sweep_visit L M vlist sacc v) (propose_visit L M st0 pacc v)
        (reconcile_visit M bmF racc v) ?_ (p1.trans s1.symm) ?_ ?_ ?_ hmax1 hF1
      · rw [s2, p1]
        exact hn3
      · rw [r1, s2, hstate, hb]
      · rw [r2, s3, hstate, hS, hb]
      · rw [r3, s4, hnm]

/-- C9, as stated, fails, with one worker, infinite `beta` and every proposed
and every reconciled move of negative cost.  On `greedy3` (unit weights, two
sweeps over `[0, 1]`) the sequential sweep visits 0, 1 and then, the list
being reversed, 1, 0, while the parallel sweep visits 0, 1 twice: the total
objective changes are `-6` and `-7`.  On `greedy2` (one sweep over `[0]`,
vertex 0 of weight 2) both commit the same single move, and the accepted
weights are 2 and 1.  The remaining runs are single sweeps with unit weights,
in which the two functions differ because the vertex list has a duplicate
(`greedy4` over `[1, 1]`: `best_move` keeps one move per vertex, committed
twice), because `skip_node` holds for a vertex (`greedy_skip`: only
`mcmc_sweep` asks), because `_null_move` differs from `null_group`
(`greedy_null`: each function tests its own sentinel), because `step` changes
the model state (`greedy_step`: only `mcmc_sweep` calls it), because
`mcmc_sweep` is not in sequential deterministic mode (`greedy_shuffled`,
`greedy_sampled`: it shuffles the list or draws the vertices), or because the
proposals depend on the model state (`greedy_prop`: `mcmc_sweep` proposes on
the state as updated so far, `mcmc_sweep_parallel` on the state before the
sweep).  In each of the single sweeps every proposed and every reconciled
move has a negative objective delta (`moves_negative`). -/
theorem parallel_differs_from_sequential :
    greedy3.beta = Dbl.pinf ∧ greedy3.niter = 2 ∧
    (mcmc_sweep lib0 greedy3 [0, 0] [0, 1] 1).calls
      = [Call.move_proposal 0, Call.virtual_move_dS 0 1, Call.perform_move 0 1,
         Call.step 0 1,
         Call.move_proposal 1, Call.virtual_move_dS 1 2, Call.perform_move 1 2,
         Call.step 1 2,
         Call.move_proposal 1, Call.virtual_move_dS 1 0, Call.perform_move 1 0,
         Call.step 1 0,
         Call.move_proposal 0, Call.virtual_move_dS 0 1, Call.perform_move 0 1,
         Call.step 0 1] ∧
    (mcmc_sweep_parallel lib0 greedy3 [0, 0] [0, 1] 1).calls
      = [Call.move_proposal 0, Call.virtual_move_dS 0 1,
         Call.move_proposal 1, Call.virtual_move_dS 1 2,
         Call.virtual_move_dS 0 1, Call.perform_move 0 1,
         Call.virtual_move_dS 1 2, Call.perform_move 1 2,
         Call.move_proposal 0, Call.virtual_move_dS 0 0,
         Call.move_proposal 1, Call.virtual_move_dS 1 1,
         Call.virtual_move_dS 0 0, Call.perform_move 0 0,
         Call.virtual_move_dS 1 1, Call.perform_move 1 1] ∧
    (mcmc_sweep lib0 greedy3 [0, 0] [0, 1] 1).ret = (Dbl.fin (-6), 4, 4) ∧
    (mcmc_sweep_parallel lib0 greedy3 [0, 0] [0, 1] 1).ret = (Dbl.fin (-7), 0, 4) ∧
    greedy2.beta = Dbl.pinf ∧ greedy2.niter = 1 ∧
    (mcmc_sweep lib0 greedy2 [0, 0] [0] 1).ret = (Dbl.fin (-1), 2, 2) ∧
    (mcmc_sweep_parallel lib0 greedy2 [0, 0] [0] 1).ret = (Dbl.fin (-1), 0, 1) ∧
    (mcmc_sweep lib0 greedy4 [0, 0] [1, 1] 1).ret = (Dbl.fin (-5), 2, 2) ∧
    (mcmc_sweep_parallel lib0 greedy4 [0, 0] [1, 1] 1).ret = (Dbl.fin (-6), 0, 2) ∧
    (mcmc_sweep lib0 greedy_skip [0, 0] [0, 1] 1).ret = (Dbl.fin (-2), 1, 1) ∧
    (mcmc_sweep_parallel lib0 greedy_skip [0, 0] [0, 1] 1).ret = (Dbl.fin (-4), 0, 2) ∧
    (mcmc_sweep lib0 greedy_null [0, 0] [0, 1] 1).ret = (Dbl.fin (-3), 1, 1) ∧
    (mcmc_sweep_parallel lib0 greedy_null [0, 0] [0, 1] 1).ret = (Dbl.fin (-4), 0, 2) ∧
    (mcmc_sweep lib0 greedy_step [0, 0] [0, 1] 1).ret = (Dbl.fin (-9), 2, 2) ∧
    (mcmc_sweep_parallel lib0 greedy_step [0, 0] [0, 1] 1).ret = (Dbl.fin (-3), 0, 2) ∧
    (mcmc_sweep lib0 greedy_shuffled [0, 0] [0, 1] 1).ret = (Dbl.fin (-2), 2, 2) ∧
    (mcmc_sweep_parallel lib0 greedy_shuffled [0, 0] [0, 1] 1).ret = (Dbl.fin (-4), 0, 2) ∧
    (mcmc_sweep lib0 greedy_sampled [0, 0] [0, 1] 1).ret = (Dbl.fin (-5), 2, 2) ∧
    (mcmc_sweep_parallel lib0 greedy_sampled [0, 0] [0, 1] 1).ret = (Dbl.fin (-4), 0, 2) ∧
    (mcmc_sweep lib0 greedy_prop [0, 0] [0, 1] 1).ret = (Dbl.fin (-2), 2, 2) ∧
    (mcmc_sweep_parallel lib0 greedy_prop [0, 0] [0, 1] 1).ret = (Dbl.fin (-4), 0, 2) ∧
    moves_negative greedy2 [0, 0] [0] [0, 0] 1 = true ∧
    moves_negative greedy4 [0, 0] [1, 1] [0, 0] 1 = true ∧
    moves_negative greedy_skip [0, 0] [0, 1] [0, 0] 1 = true ∧
    moves_negative greedy_null [0, 0] [0, 1] [0, 0] 1 = true ∧
    moves_negative greedy_step [0, 0] [0, 1] [0, 0] 1 = true ∧
    moves_negative greedy_shuffled [0, 0] [0, 1] [0, 0] 1 = true ∧
    moves_negative greedy_sampled [0, 0] [0, 1] [0, 0] 1 = true ∧
    moves_negative greedy_prop [0, 0] [0, 1] [0, 0] 1 = true := by
  refine ⟨rfl, rfl, by decide!, by decide!, by decide!, by decide!, rfl, rfl, ?_⟩
  refine ⟨by decide!, by decide!, by decide!, by decide!, by decide!, by decide!, ?_⟩
  refine ⟨by decide!, by decide!, by decide!, by decide!, by decide!, by decide!, ?_⟩
  refine ⟨by decide!, by decide!, by decide!, by decide!, ?_⟩
  exact ⟨by decide!, by decide!, by decide!, by decide!, by decide!, by decide!, by decide!,
    by decide!⟩

/-- C9, amended: for one worker, infinite `beta` and a model state on which
every proposed and every reconciled move has negative objective delta
(`moves_negative`), a single sweep (`niter = 1`) of `mcmc_sweep_parallel`
returns the same total objective change and the same accepted weight as
`mcmc_sweep` in sequential deterministic mode, and leaves the same model
state, provided the vertex list has no duplicates, its vertices have weight 1
and are not skipped, proposals do not depend on the model state, `step` leaves
the state unchanged and the two null sentinels coincide. -/
theorem parallel_eq_sequential_single_sweep {σ G : Type} (L : Lib G) (M : MCMCState σ G)
    (st : σ) (vlist : List Nat) (rng : G)
    (hbeta : M.beta.isinf = true)
    (hneg : moves_negative M st vlist st rng = true)
    (hniter : M.niter = 1) (hseq : M.sequential = true) (hdet : M.deterministic = true)
    (hnodup : vlist.Nodup)
    (hw : ∀ s, ∀ v ∈ vlist, M.node_weight s v = 1)
    (hskip : ∀ s, ∀ v ∈ vlist, M.skip_node s v = false)
    (hprop : ∀ s t v g, M.move_proposal s v g = M.move_proposal t v g)
    (hstep : ∀ s v t, M.step s v t = s)
    (hnull : M.null_move = M.null_group) :
    (mcmc_sweep_parallel L M st vlist rng).ret.1 = (mcmc_sweep L M st vlist rng).ret.1 ∧
    (mcmc_sweep_parallel L M st vlist rng).ret.2.2 = (mcmc_sweep L M st vlist rng).ret.2.2 ∧
    (mcmc_sweep_parallel L M st vlist rng).state = (mcmc_sweep L M st vlist rng).state := by
  have h := greedy_folds_agree L M st vlist
    ((vlist.foldl (propose_visit L M st)
      { best_move := vlist.foldl (best_move_reset M st) (fun _ => (0, 0)), rng := rng,
        calls := [] }).best_move)
    hbeta hnull hprop hstep hseq vlist hnodup hw hskip
    { state := st, rng := rng, S := 0, nattempts := 0, nmoves := 0, calls := [] }
    { best_move := vlist.foldl (best_move_reset M st) (fun _ => (0, 0)), rng := rng,
      calls := [] }
    { state := st, S := 0, nmoves := 0, nattempts := 0,
      calls := (vlist.foldl (propose_visit L M st)
        { best_move := vlist.foldl (best_move_reset M st) (fun _ => (0, 0)), rng := rng,
          calls := [] }).calls }
    hneg rfl rfl rfl rfl
    (fun v hv => by
      show ((vlist.foldl (best_move_reset M st) (fun _ => (0, 0))) v).2 = Dbl.max
      rw [best_move_reset_fold, if_pos hv])
    (fun v _ => rfl)
  simp only [mcmc_sweep_parallel, mcmc_sweep, hniter, Function.iterate_one,
    mcmc_sweep_parallel_iter, mcmc_sweep_iter, hseq, hdet, Bool.not_true, Bool.and_false,
    Bool.false_eq_true, if_false, Bool.and_self, if_true]
  exact ⟨h.2.1, h.2.2.1, h.1⟩

/-- The amended C9 on `par0`, whose objective is the number of pairs of
vertices with the same label, from the labels `[0, 0, 0, 0]` with the vertex
list `[0, 1]`: vertex 0 is proposed group 1 and vertex 1 group 2, at the
proposed costs `-3` and `-3` and the reconciled costs `-3` and `-2` (moves
into the group a vertex is in cost 0 on `par0`, so not every move is of
negative cost); both sweeps return the total `-5` and the accepted weight 2. -/
theorem parallel_eq_sequential_single_sweep_witness :
    (mcmc_sweep_parallel lib0 par0 [0, 0, 0, 0] [0, 1] 1).ret.1
        = (mcmc_sweep lib0 par0 [0, 0, 0, 0] [0, 1] 1).ret.1 ∧
    (mcmc_sweep_parallel lib0 par0 [0, 0, 0, 0] [0, 1] 1).ret.2.2
        = (mcmc_sweep lib0 par0 [0, 0, 0, 0] [0, 1] 1).ret.2.2 ∧
    (mcmc_sweep lib0 par0 [0, 0, 0, 0] [0, 1] 1).ret = (Dbl.fin (-5), 2, 2) ∧
    (par0.virtual_move_dS [0, 0, 0, 0] 0 0).1 = Dbl.fin 0 :=
  have h := parallel_eq_sequential_single_sweep lib0 par0 [0, 0, 0, 0] [0, 1] 1 rfl
    (by decide!) rfl rfl rfl (by decide) (fun _ _ _ => rfl) (fun _ _ _ => rfl)
    (fun _ _ _ _ => rfl) (fun _ _ _ => rfl) rfl
  ⟨h.1, h.2.1, by decide!, by decide!⟩

/-! ## The deterministic schedule of the sequential sweep -/

theorem mcmc_sweep_visited_sequential {σ G : Type} (L : Lib G) (M : MCMCState σ G)
    (vlist : List Nat) (hseq : M.sequential = true) (acc : SweepAcc σ G) (l : List Nat) :
    mcmc_sweep_visited L M vlist acc l = l := by
  induction l generalizing acc with
  | nil => rfl
  | cons x l ih => simp [mcmc_sweep_visited, mcmc_sweep_pick, hseq, ih]

theorem mcmc_sweep_iter_deterministic {σ G : Type} (L : Lib G) (M : MCMCState σ G)
    (hseq : M.sequential = true) (hdet : M.deterministic = true)
    (x : List Nat × SweepAcc σ G) :
    mcmc_sweep_iter L M x = (x.1.reverse, x.1.foldl (mcmc_sweep_visit L M x.1) x.2) := by
  simp [mcmc_sweep_iter, hseq, hdet]

theorem mcmc_sweep_iterate_list {σ G : Type} (L : Lib G) (M : MCMCState σ G)
    (hseq : M.sequential = true) (hdet : M.deterministic = true) (k : Nat)
    (x : List Nat × SweepAcc σ G) :
    ((mcmc_sweep_iter L M)^[k] x).1 = if k % 2 = 0 then x.1 else x.1.reverse := by
  induction k generalizing x with
  | zero => simp
  | succ k ih =>
    rw [Function.iterate_succ_apply, ih, mcmc_sweep_iter_deterministic L M hseq hdet]
    rcases Nat.mod_two_eq_zero_or_one k with h | h
    · have : (k + 1) % 2 = 1 := by omega
      simp [h, this]
    · have : (k + 1) % 2 = 0 := by omega
      simp [h, this]

theorem mcmc_sweep_orders_deterministic {σ G : Type} (L : Lib G) (M : MCMCState σ G)
    (hseq : M.sequential = true) (hdet : M.deterministic = true) (n : Nat)
    (x : List Nat × SweepAcc σ G) (k : Nat) (hk : k < n) :
    (mcmc_sweep_orders L M n x)[k]? = some (if k % 2 = 0 then x.1 else x.1.reverse) := by
  induction n generalizing x k with
  | zero => omega
  | succ n ih =>
    cases k with
    | zero =>
      simp [mcmc_sweep_orders, hseq, hdet, mcmc_sweep_visited_sequential L M _ hseq]
    | succ k =>
      simp only [mcmc_sweep_orders, List.getElem?_cons_succ]
      rw [ih _ k (by omega), mcmc_sweep_iter_deterministic L M hseq hdet]
      rcases Nat.mod_two_eq_zero_or_one k with h | h
      · have : (k + 1) % 2 = 1 := by omega
        simp [h, this]
      · have : (k + 1) % 2 = 0 := by omega
        simp [h, this]

theorem mcmc_sweep_iter_shuffle_free {σ G : Type} (L : Lib G) (M : MCMCState σ G)
    (hseq : M.sequential = true) (hdet : M.deterministic = true)
    (sh : List Nat → G → List Nat × G) (us : List Nat → G → Nat × G) :
    mcmc_sweep_iter { L with shuffle := sh, uniform_sample := us } M = mcmc_sweep_iter L M := by
  funext x
  have hv : ∀ l, mcmc_sweep_visit { L with shuffle := sh, uniform_sample := us } M l
      = mcmc_sweep_visit L M l := by
    intro l
    funext acc y
    simp [mcmc_sweep_visit, hseq, metropolis_accept]
  simp [mcmc_sweep_iter, hseq, hdet, hv]

theorem mcmc_sweep_iter_niter {σ G : Type} (L : Lib G) (M : MCMCState σ G) (n : Nat) :
    mcmc_sweep_iter L { M with niter := n } = mcmc_sweep_iter L M := rfl

theorem mcmc_sweep_visit_proposed {σ G : Type} (L : Lib G) (M : MCMCState σ G)
    (hseq : M.sequential = true) (hskip : ∀ s v, M.skip_node s v = false)
    (vlist : List Nat) (acc : SweepAcc σ G) (x : Nat) :
    (mcmc_sweep_visit L M vlist acc x).calls.filterMap Call.proposed
      = acc.calls.filterMap Call.proposed ++ [x] := by
  simp only [mcmc_sweep_visit, hseq, hskip, if_true, Bool.false_eq_true, if_false]
  split_ifs <;> simp [List.filterMap_append, Call.proposed]

theorem mcmc_sweep_fold_proposed {σ G : Type} (L : Lib G) (M : MCMCState σ G)
    (hseq : M.sequential = true) (hskip : ∀ s v, M.skip_node s v = false)
    (vlist l : List Nat) (acc : SweepAcc σ G) :
    (l.foldl (mcmc_sweep_visit L M vlist) acc).calls.filterMap Call.proposed
      = acc.calls.filterMap Call.proposed ++ l := by
  induction l generalizing acc with
  | nil => simp
  | cons x l ih =>
    rw [List.foldl_cons, ih, mcmc_sweep_visit_proposed L M hseq hskip]
    simp

theorem mcmc_sweep_iterate_proposed {σ G : Type} (L : Lib G) (M : MCMCState σ G)
    (hseq : M.sequential = true) (hdet : M.deterministic = true)
    (hskip : ∀ s v, M.skip_node s v = false) (n : Nat) (x : List Nat × SweepAcc σ G) :
    ((mcmc_sweep_iter L M)^[n] x).2.calls.filterMap Call.proposed
      = x.2.calls.filterMap Call.proposed
        ++ (List.range n).flatMap (fun k => if k % 2 = 0 then x.1 else x.1.reverse) := by
  induction n with
  | zero => simp
  | succ n ih =>
    rw [Function.iterate_succ_apply', mcmc_sweep_iter_deterministic L M hseq hdet,
      mcmc_sweep_fold_proposed L M hseq hskip, ih, mcmc_sweep_iterate_list L M hseq hdet,
      List.range_succ, List.flatMap_append]
    simp

/-- C11: in sequential deterministic mode `mcmc_sweep` never shuffles (its
result does not depend on the routines `shuffle` and `uniform_sample`); sweep
`k` (0-based) visits exactly the entries of the vertex list, each once, in the
original order when `k` is even and in reversed order when `k` is odd; after
`niter` sweeps the vertex list is the original list if `niter` is even and its
reverse if `niter` is odd.  The order of the visits is stated of `mcmc_sweep`
itself in the last two parts: what `mcmc_sweep` leaves after `k + 1` sweeps is
what the visits of the inner loop, made in that order one after the other,
make of what it leaves after `k` sweeps (sweep `k` of a longer run does the
same, the number of sweeps being read by the loop guard only); and when no
vertex is skipped by `skip_node`, the calls of `move_proposal` that
`mcmc_sweep` makes are, in order, for the vertices of the list (sweep 0), of
the reversed list (sweep 1), of the list (sweep 2), and so on for `niter`
sweeps. -/
theorem mcmc_sweep_deterministic_schedule {σ G : Type} (L : Lib G) (M : MCMCState σ G)
    (st : σ) (vlist : List Nat) (rng : G)
    (hseq : M.sequential = true) (hdet : M.deterministic = true) :
    (∀ sh us, mcmc_sweep { L with shuffle := sh, uniform_sample := us } M st vlist rng
        = mcmc_sweep L M st vlist rng) ∧
    (∀ k, k < M.niter →
      (mcmc_sweep_orders L M M.niter
          (vlist, { state := st, rng := rng, S := 0, nattempts := 0, nmoves := 0,
                    calls := [] }))[k]?
        = some (if k % 2 = 0 then vlist else vlist.reverse)) ∧
    (mcmc_sweep L M st vlist rng).vlist
      = (if M.niter % 2 = 0 then vlist else vlist.reverse) ∧
    (∀ k, mcmc_sweep L { M with niter := k + 1 } st vlist rng
      = SweepAcc.out
          ((if k % 2 = 0 then vlist else vlist.reverse).foldl
            (mcmc_sweep_visit L M (if k % 2 = 0 then vlist else vlist.reverse))
            (mcmc_sweep L { M with niter := k } st vlist rng).vars)
          (if (k + 1) % 2 = 0 then vlist else vlist.reverse)) ∧
    ((∀ s v, M.skip_node s v = false) →
      (mcmc_sweep L M st vlist rng).calls.filterMap Call.proposed
        = (List.range M.niter).flatMap (fun k => if k % 2 = 0 then vlist else vlist.reverse)) := by
  refine ⟨?_, ?_, ?_, ?_, ?_⟩
  · intro sh us
    simp only [mcmc_sweep, mcmc_sweep_iter_shuffle_free L M hseq hdet sh us]
  · intro k hk
    exact mcmc_sweep_orders_deterministic L M hseq hdet M.niter _ k hk
  · exact mcmc_sweep_iterate_list L M hseq hdet M.niter _
  · intro k
    simp only [mcmc_sweep, mcmc_sweep_iter_niter, SweepOut.vars, SweepAcc.out]
    rw [Function.iterate_succ_apply', mcmc_sweep_iter_deterministic L M hseq hdet,
      mcmc_sweep_iterate_list L M hseq hdet]
    rcases Nat.mod_two_eq_zero_or_one k with h | h
    · have : (k + 1) % 2 = 1 := by omega
      simp [h, this]
    · have : (k + 1) % 2 = 0 := by omega
      simp [h, this]
  · intro hskip
    have h := mcmc_sweep_iterate_proposed L M hseq hdet hskip M.niter
      (vlist, { state := st, rng := rng, S := 0, nattempts := 0, nmoves := 0, calls := [] })
    simpa [mcmc_sweep] using h

/-- The statement of C11 on `par3` (three sweeps over `[0, 1]`): the last
sweep, of index 2, visits 0 then 1, the list is left reversed, and the calls
of `move_proposal` are for the vertices 0, 1, 1, 0, 0, 1 in this order. -/
theorem mcmc_sweep_deterministic_schedule_witness :
    (mcmc_sweep_orders lib0 par3 par3.niter
        ([0, 1], { state := [0, 0], rng := 1, S := 0, nattempts := 0, nmoves := 0,
                   calls := [] }))[2]?
      = some (if 2 % 2 = 0 then [0, 1] else [0, 1].reverse) ∧
    (mcmc_sweep lib0 par3 [0, 0] [0, 1] 1).vlist
      = (if par3.niter % 2 = 0 then [0, 1] else [0, 1].reverse) ∧
    (mcmc_sweep lib0 par3 [0, 0] [0, 1] 1).calls.filterMap Call.proposed
      = [0, 1, 1, 0, 0, 1] :=
  have h := mcmc_sweep_deterministic_schedule lib0 par3 [0, 0] [0, 1] 1 rfl rfl
  ⟨h.2.1 2 (by decide), h.2.2.1, (h.2.2.2.2 (fun _ _ => rfl)).trans (by decide)⟩

/-! ## `StateWrap::dispatch` -/

theorem dispatch_fold_no_match {τ V ε ω : Type} (ostate : PyObj τ V)
    (f : τ → V → ω → Except ε ω) (l : List τ) (hl : ∀ t ∈ l, ostate.conv t = none)
    (acc : DispatchAcc τ ε ω) :
    l.foldl (dispatch_visit ostate f) acc = acc := by
  induction l generalizing acc with
  | nil => rfl
  | cons t l ih =>
    have ht : dispatch_visit ostate f acc t = acc := by
      unfold dispatch_visit
      rw [hl t (List.mem_cons_self _ _)]
      cases acc.thrown <;> rfl
    rw [List.foldl_cons, ht]
    exact ih (fun t1 h1 => hl t1 (List.mem_cons_of_mem _ h1)) acc

theorem dispatch_fold_not_found {τ V ε ω : Type} (ostate : PyObj τ V)
    (f : τ → V → ω → Except ε ω) (l : List τ) (acc : DispatchAcc τ ε ω)
    (h1 : (l.foldl (dispatch_visit ostate f) acc).thrown = none)
    (h2 : (l.foldl (dispatch_visit ostate f) acc).found = false) :
    ∀ t ∈ l, ostate.conv t = none := by
  induction l generalizing acc with
  | nil => simp
  | cons t l ih =>
    rw [List.foldl_cons] at h1 h2
    have hrest := ih _ h1 h2
    have hacc : l.foldl (dispatch_visit ostate f) (dispatch_visit ostate f acc t)
        = dispatch_visit ostate f acc t := dispatch_fold_no_match ostate f l hrest _
    rw [hacc] at h1 h2
    intro t1 ht1
    rcases List.mem_cons.mp ht1 with h | h
    · subst h
      unfold dispatch_visit at h1 h2
      cases hth : acc.thrown with
      | some e => simp [hth] at h1
      | none =>
        cases hc : ostate.conv t1 with
        | none => rfl
        | some state =>
          simp only [hth, hc] at h1 h2
          cases hf : f t1 state acc.world with
          | ok w => simp [hf] at h2
          | error e => simp [hf] at h1
    · exact hrest t1 h

/-- C12: `dispatch(ostate, f, throw_not_found)` raises its
`GraphException("dispatch not found ...")` if and only if no catalog type
matches `ostate` and `throw_not_found` is true; when no type matches and
`throw_not_found` is false it raises nothing, never invokes `f` and leaves the
surroundings of `f` as they were. -/
theorem dispatch_not_found_iff {τ V ε ω : Type} (catalog : List τ) (ostate : PyObj τ V)
    (f : τ → V → ω → Except ε ω) (throw_not_found : Bool) (w : ω) :
    ((dispatch catalog ostate f throw_not_found w).error = some Exn.GraphException ↔
      ((∀ t ∈ catalog, ostate.conv t = none) ∧ throw_not_found = true)) ∧
    ((∀ t ∈ catalog, ostate.conv t = none) → throw_not_found = false →
      (dispatch catalog ostate f throw_not_found w).error = none ∧
      (dispatch catalog ostate f throw_not_found w).invoked = [] ∧
      (dispatch catalog ostate f throw_not_found w).world = w) := by
  constructor
  · constructor
    · intro h
      unfold dispatch at h
      cases hth : (catalog.foldl (dispatch_visit ostate f)
          { world := w, found := false, invoked := [], thrown := none }).thrown with
      | some e => simp [hth] at h
      | none =>
        simp only [hth] at h
        split_ifs at h with hc
        simp only [Bool.and_eq_true, Bool.not_eq_true'] at hc
        exact ⟨dispatch_fold_not_found ostate f catalog _ hth hc.1, hc.2⟩
    · rintro ⟨hno, ht⟩
      simp [dispatch, dispatch_fold_no_match ostate f catalog hno, ht]
  · intro hno ht
    simp [dispatch, dispatch_fold_no_match ostate f catalog hno, ht]

/-- The statement of C12 on the catalog `[2, 3]` and an object of type 1: with
`throw_not_found` the exception is raised, without it nothing happens. -/
theorem dispatch_not_found_iff_witness :
    (dispatch [2, 3] py_one record_f true []).error = some Exn.GraphException ∧
    (dispatch [2, 3] py_one record_f false []).error = none ∧
    (dispatch [2, 3] py_one record_f false []).invoked = [] :=
  ⟨(dispatch_not_found_iff [2, 3] py_one record_f true []).1.2 ⟨by decide, rfl⟩,
   ((dispatch_not_found_iff [2, 3] py_one record_f false []).2 (by decide) rfl).1,
   ((dispatch_not_found_iff [2, 3] py_one record_f false []).2 (by decide) rfl).2.1⟩

theorem dispatch_fold_invoked {τ V ε ω : Type} (ostate : PyObj τ V)
    (f : τ → V → ω → Except ε ω) (hf : ∀ t v w, ∃ w1, f t v w = Except.ok w1)
    (l : List τ) (acc : DispatchAcc τ ε ω) (hacc : acc.thrown = none) :
    (l.foldl (dispatch_visit ostate f) acc).thrown = none ∧
    (l.foldl (dispatch_visit ostate f) acc).invoked
      = acc.invoked ++ l.filter (fun t => (ostate.conv t).isSome) := by
  induction l generalizing acc with
  | nil => simp [hacc]
  | cons t l ih =>
    rw [List.foldl_cons]
    cases hc : ostate.conv t with
    | none =>
      have ht : dispatch_visit ostate f acc t = acc := by
        simp [dispatch_visit, hacc, hc]
      rw [ht]
      simpa [hc] using ih acc hacc
    | some state =>
      obtain ⟨w1, hw1⟩ := hf t state acc.world
      have ht : dispatch_visit ostate f acc t
          = { world := w1, found := true, invoked := acc.invoked ++ [t], thrown := none } := by
        simp [dispatch_visit, hacc, hc, hw1]
      rw [ht]
      obtain ⟨h2a, h2b⟩ := ih (DispatchAcc.mk w1 true (acc.invoked ++ [t]) none) rfl
      exact ⟨h2a, by simpa [hc] using h2b⟩

/-- C13, as stated, fails: on the catalog `[1, 2]` an object that converts to
both types has the continuation invoked twice, on 1 and then on 2. -/
theorem dispatch_invokes_every_match :
    py_two.conv 1 = some 10 ∧ py_two.conv 2 = some 20 ∧
    (dispatch [1, 2] py_two record_f true []).invoked = [1, 2] ∧
    (dispatch [1, 2] py_two record_f true []).world = [10, 20] ∧
    (dispatch [1, 2] py_two record_f true []).error = none := by
  decide

/-- C13, amended: `dispatch` does not stop at the first match.  With a
continuation that does not throw, it invokes the continuation once on every
catalog entry that matches the bundle, in enumeration order; so the
continuation is invoked exactly once, on the matching entry, when exactly one
entry matches. -/
theorem dispatch_invoked_eq_matches {τ V ε ω : Type} (catalog : List τ) (ostate : PyObj τ V)
    (f : τ → V → ω → Except ε ω) (throw_not_found : Bool) (w : ω)
    (hf : ∀ t v w, ∃ w1, f t v w = Except.ok w1) :
    (dispatch catalog ostate f throw_not_found w).invoked
      = catalog.filter (fun t => (ostate.conv t).isSome) ∧
    (∀ t, catalog.filter (fun t => (ostate.conv t).isSome) = [t] →
      (dispatch catalog ostate f throw_not_found w).invoked = [t]) := by
  have h := dispatch_fold_invoked ostate f hf catalog
    { world := w, found := false, invoked := [], thrown := none } rfl
  have hinv : (dispatch catalog ostate f throw_not_found w).invoked
      = catalog.filter (fun t => (ostate.conv t).isSome) := by
    unfold dispatch
    simp only [h.1]
    split_ifs <;> simpa using h.2
  exact ⟨hinv, fun t ht => hinv.trans ht⟩

/-- The amended C13 on the catalog `[2, 1, 3]` and an object of type 1. -/
theorem dispatch_invoked_eq_matches_witness :
    (dispatch [2, 1, 3] py_one record_f true []).invoked = [1] :=
  (dispatch_invoked_eq_matches [2, 1, 3] py_one record_f true []
    (fun _ v w => ⟨w ++ [v], rfl⟩)).2 1 (by decide)

/-! ## `make_dispatch` on a failing type-list field -/

/-- C15: `extract<T>` tries the direct extraction, then the `boost::any` held
by the value (through `_get_any` when present), then the reference wrapper:
fields 0, 1 and 2 of `bundle_all` are extracted by the first, the second and
the third route.  For field 3, a `boost::any` that holds neither `T` nor its
reference wrapper, the call ends in `ValueException` with the field and the
type.  For field 4, a value that converts to nothing and holds no `boost::any`,
the call ends in a Python error (`error_already_set`) instead: the handler of
the first `try` block calls `extract()` again, and that call raises. -/
theorem extract_non_any_raises_python_error :
    (extract env0.ref bundle_all 0 1 : Except (Exn Nat Unit) Nat) = Except.ok 10 ∧
    (extract env0.ref bundle_all 1 3 : Except (Exn Nat Unit) Nat) = Except.ok 30 ∧
    (extract env0.ref bundle_all 2 3 : Except (Exn Nat Unit) Nat) = Except.ok 40 ∧
    (extract env0.ref bundle_all 3 3 : Except (Exn Nat Unit) Nat) = Except.error (Exn.ValueException 3 [3]) ∧
    (extract env0.ref bundle_all 4 3 : Except (Exn Nat Unit) Nat) = Except.error Exn.error_already_set :=
  ⟨rfl, rfl, rfl, rfl, rfl⟩

/-! ## `virtual_move_dS` -/

/-- C16: `virtual_move_dS(v, nr)`, in the MCMC and in the multicanonical state,
returns `(dS, a)` with `dS` the value of `virtual_move` and, for finite `c`,
`a = log(pb) - log(pf)` where `pf = get_move_prob(v, b[v], nr, c, false)` and
`pb = get_move_prob(v, nr, b[v], c, true)`; for infinite `c` it returns
`(dS, 0)` whatever `get_move_prob` is.  The wrapper writes nothing itself: run
with callees that may write, it leaves every label `b[u]` unchanged as soon as
`virtual_move` and `get_move_prob` do, and with callees that do not write it
leaves the block state as it was. -/
theorem virtual_move_dS_spec {σ G : Type} (B : BlockState σ G) (Bx : BlockStateFx σ)
    (P : BlockParams) (st : σ) (v nr : Nat) :
    (MCMCBlockState.virtual_move_dS B P st v nr).1
      = B.virtual_move st v nr P.dense P.multigraph P.partition_dl P.degree_dl P.edges_dl ∧
    (MulticanonicalBlockState.virtual_move_dS B P st v nr).1
      = B.virtual_move st v nr P.dense P.multigraph P.partition_dl P.degree_dl P.edges_dl ∧
    (P.c.isinf = false →
      (MCMCBlockState.virtual_move_dS B P st v nr).2
        = (B.log (B.get_move_prob st v nr (B.b st v) P.c true)).sub
            (B.log (B.get_move_prob st v (B.b st v) nr P.c false)) ∧
      (MulticanonicalBlockState.virtual_move_dS B P st v nr).2
        = (B.log (B.get_move_prob st v nr (B.b st v) P.c true)).sub
            (B.log (B.get_move_prob st v (B.b st v) nr P.c false))) ∧
    (P.c.isinf = true → ∀ gmp,
      MCMCBlockState.virtual_move_dS { B with get_move_prob := gmp } P st v nr
        = (B.virtual_move st v nr P.dense P.multigraph P.partition_dl P.degree_dl
            P.edges_dl, 0) ∧
      MulticanonicalBlockState.virtual_move_dS { B with get_move_prob := gmp } P st v nr
        = (B.virtual_move st v nr P.dense P.multigraph P.partition_dl P.degree_dl
            P.edges_dl, 0)) ∧
    ((∀ s v nr d m p g e u, Bx.b (Bx.virtual_move s v nr d m p g e).2 u = Bx.b s u) →
      (∀ s v r t c rev u, Bx.b (Bx.get_move_prob s v r t c rev).2 u = Bx.b s u) →
      ∀ u, Bx.b (virtual_move_dS_fx Bx P st v nr).2 u = Bx.b st u) ∧
    virtual_move_dS_fx B.toFx P st v nr = (MCMCBlockState.virtual_move_dS B P st v nr, st) ∧
    virtual_move_dS_fx B.toFx P st v nr
      = (MulticanonicalBlockState.virtual_move_dS B P st v nr, st) := by
  refine ⟨?_, ?_, ?_, ?_, ?_, ?_, ?_⟩
  · simp only [MCMCBlockState.virtual_move_dS]
    split_ifs <;> rfl
  · simp only [MulticanonicalBlockState.virtual_move_dS]
    split_ifs <;> rfl
  · intro hc
    simp [MCMCBlockState.virtual_move_dS, MulticanonicalBlockState.virtual_move_dS, hc]
  · intro hc gmp
    simp [MCMCBlockState.virtual_move_dS, MulticanonicalBlockState.virtual_move_dS, hc]
  · intro h1 h2 u
    simp only [virtual_move_dS_fx]
    split_ifs
    · simp only [h2, h1]
    · simp only [h1]
  · simp only [virtual_move_dS_fx, BlockState.toFx, MCMCBlockState.virtual_move_dS]
    split_ifs <;> rfl
  · simp only [virtual_move_dS_fx, BlockState.toFx, MulticanonicalBlockState.virtual_move_dS]
    split_ifs <;> rfl

/-- The statement of C16 on `block4` in the state `[0, 0]` for the move of
vertex 0 to group 1: with `c = 1` the Hastings term is
`log (1/4) - log (1/2)`, with `c` infinite it is 0. -/
theorem virtual_move_dS_spec_witness :
    (MCMCBlockState.virtual_move_dS block4 { params0 with c := 1 } [0, 0] 0 1).2
      = (block4.log (Dbl.fin (1 / 4))).sub (block4.log (Dbl.fin (1 / 2))) ∧
    MCMCBlockState.virtual_move_dS block4 params0 [0, 0] 0 1
      = (block4.virtual_move [0, 0] 0 1 false false false false false, 0) :=
  have h := virtual_move_dS_spec block4 block4.toFx { params0 with c := 1 } [0, 0] 0 1
  have h0 := virtual_move_dS_spec block4 block4.toFx params0 [0, 0] 0 1
  ⟨(h.2.2.1 rfl).1, ((h0.2.2.2.1 rfl) block4.get_move_prob).1⟩

/-! ## Greedy descent -/

theorem Dbl.zero_le_zero : (0 : Dbl).le 0 = true := by
  decide!

theorem Dbl.le_zero_of_lt_zero {x : Dbl} (h : x.lt 0 = true) : x.le 0 = true := by
  cases x <;> simp_all [Dbl.lt, Dbl.le, Dbl.zero_def]
  exact le_of_lt h

theorem Dbl.le_zero_of_not_gt {x : Dbl} (hn : x ≠ Dbl.nan) (h : x.gt 0 = false) :
    x.le 0 = true := by
  cases x <;> simp_all [Dbl.gt, Dbl.lt, Dbl.le, Dbl.zero_def]

theorem Dbl.add_le_zero {x y : Dbl} (hx : x.le 0 = true) (hy : y.le 0 = true) :
    (x.add y).le 0 = true := by
  cases x <;> cases y <;> simp_all [Dbl.add, Dbl.le, Dbl.zero_def]
  exact add_nonpos hx hy

theorem mcmc_sweep_visit_S_le {σ G : Type} (L : Lib G) (M : MCMCState σ G)
    (hbeta : M.beta.isinf = true) (vlist : List Nat) (acc : SweepAcc σ G) (x : Nat)
    (h : acc.S.le 0 = true) : (mcmc_sweep_visit L M vlist acc x).S.le 0 = true := by
  simp only [mcmc_sweep_visit, metropolis_accept_of_isinf L _ _ _ _ hbeta]
  generalize (if M.sequential = true then (x, acc.rng) else L.uniform_sample vlist acc.rng)
    = pk
  split_ifs with h1 h2 h3
  · exact h
  · exact h
  · exact Dbl.add_le_zero h (Dbl.le_zero_of_lt_zero h3)
  · exact h

theorem mcmc_sweep_iter_S_le {σ G : Type} (L : Lib G) (M : MCMCState σ G)
    (hbeta : M.beta.isinf = true) (x : List Nat × SweepAcc σ G)
    (h : x.2.S.le 0 = true) : (mcmc_sweep_iter L M x).2.S.le 0 = true := by
  simp only [mcmc_sweep_iter]
  exact foldl_invariant (fun a : SweepAcc σ G => a.S.le 0 = true) _ _
    (fun b a _ hb => mcmc_sweep_visit_S_le L M hbeta _ b a hb) _ h

theorem reconcile_visit_S_le {σ G : Type} (M : MCMCState σ G)
    (hbeta : M.beta.isinf = true)
    (hnan : ∀ s v t, (M.virtual_move_dS s v t).1 ≠ Dbl.nan)
    (bm : Nat → Nat × Dbl) (acc : ReconAcc σ) (v : Nat)
    (h : acc.S.le 0 = true) : (reconcile_visit M bm acc v).S.le 0 = true := by
  simp only [reconcile_visit, hbeta, Bool.and_true]
  split_ifs with h1 h2
  · exact h
  · exact Dbl.add_le_zero h (Dbl.le_zero_of_not_gt (hnan _ _ _) (by simpa using h2))
  · exact h

theorem mcmc_sweep_parallel_iter_S_le {σ G : Type} (L : Lib G) (M : MCMCState σ G)
    (hbeta : M.beta.isinf = true)
    (hnan : ∀ s v t, (M.virtual_move_dS s v t).1 ≠ Dbl.nan)
    (vlist : List Nat) (acc : ParAcc σ G)
    (h : acc.S.le 0 = true) : (mcmc_sweep_parallel_iter L M vlist acc).S.le 0 = true := by
  simp only [mcmc_sweep_parallel_iter]
  exact foldl_invariant (fun a : ReconAcc σ => a.S.le 0 = true) _ _
    (fun b a _ hb => reconcile_visit_S_le M hbeta hnan _ b a hb) _ h

/-- C19, as stated, fails for the parallel sweep: on `greedy_nan` (infinite
`beta`) both recorded moves have cost `-1` in the state `[0, 0]`; once vertex 0
has moved, the re-evaluated cost of the move of vertex 1 is NaN, which is not
`> 0`, so the move is committed and the returned total is NaN, which is not
`<= 0`. -/
theorem parallel_total_not_nonpositive :
    greedy_nan.beta = Dbl.pinf ∧
    greedy_nan.virtual_move_dS [0, 0] 1 2 = (Dbl.fin (-1), 0) ∧
    greedy_nan.virtual_move_dS [1, 0] 1 2 = (Dbl.nan, 0) ∧
    (mcmc_sweep_parallel lib0 greedy_nan [0, 0] [0, 1] 1).calls
      = [Call.move_proposal 0, Call.virtual_move_dS 0 1,
         Call.move_proposal 1, Call.virtual_move_dS 1 2,
         Call.virtual_move_dS 0 1, Call.perform_move 0 1,
         Call.virtual_move_dS 1 2, Call.perform_move 1 2] ∧
    (mcmc_sweep_parallel lib0 greedy_nan [0, 0] [0, 1] 1).ret = (Dbl.nan, 0, 2) ∧
    (mcmc_sweep_parallel lib0 greedy_nan [0, 0] [0, 1] 1).ret.1.le 0 = false := by
  decide!

/-- C19, amended: at infinite `beta` the total objective change returned by
`mcmc_sweep` is `<= 0` for every model state, vertex list and `niter`; the
total returned by `mcmc_sweep_parallel` is `<= 0` whenever `virtual_move_dS`
never yields NaN, every committed move then contributing a cost that is not
`> 0`. -/
theorem greedy_descent {σ G : Type} (L : Lib G) (M : MCMCState σ G) (st : σ)
    (vlist : List Nat) (rng : G) (hbeta : M.beta.isinf = true) :
    (mcmc_sweep L M st vlist rng).ret.1.le 0 = true ∧
    ((∀ s v t, (M.virtual_move_dS s v t).1 ≠ Dbl.nan) →
      (mcmc_sweep_parallel L M st vlist rng).ret.1.le 0 = true) := by
  constructor
  · exact iterate_invariant (fun x : List Nat × SweepAcc σ G => x.2.S.le 0 = true)
      (mcmc_sweep_iter L M) (fun b hb => mcmc_sweep_iter_S_le L M hbeta b hb) M.niter _
      Dbl.zero_le_zero
  · intro hnan
    exact iterate_invariant (fun a : ParAcc σ G => a.S.le 0 = true)
      (mcmc_sweep_parallel_iter L M vlist)
      (fun b hb => mcmc_sweep_parallel_iter_S_le L M hbeta hnan vlist b hb) M.niter _
      Dbl.zero_le_zero

/-- The amended C19 on `par0`, whose costs are differences of natural numbers:
the sequential and the parallel totals are `<= 0`. -/
theorem greedy_descent_witness :
    (mcmc_sweep lib0 par0 [0, 0] [0, 1] 1).ret.1.le 0 = true ∧
    (mcmc_sweep_parallel lib0 par0 [0, 0] [0, 1] 1).ret.1.le 0 = true :=
  have h := greedy_descent lib0 par0 [0, 0] [0, 1] 1 rfl
  ⟨h.1, h.2 (fun s v t => by
    show (MCMCBlockState.virtual_move_dS block0 { params0 with allow_empty := true }
      s v t).1 ≠ Dbl.nan
    simp only [MCMCBlockState.virtual_move_dS, block0]
    split_ifs <;> exact Dbl.noConfusion)⟩

/-! ## Facts about `to_value` and `first_rank` -/

theorem to_value_of_lt (w n : Nat) (h : n < 2 ^ (w - 1)) : to_value w n = n := by
  unfold to_value
  have hpos : 0 < 2 ^ (w - 1) := Nat.two_pow_pos _
  rcases Nat.eq_zero_or_pos w with hw | hw
  · subst hw
    have hn : n = 0 := by
      simp at h
      exact h
    subst hn
    decide
  · have h2 : 2 ^ w = 2 * 2 ^ (w - 1) := by
      conv_lhs => rw [show w = (w - 1) + 1 by omega]
      rw [pow_succ]
      ring
    have hmod : ((n : Int) % ((2 ^ w : Nat) : Int)) = n := by
      apply Int.emod_eq_of_lt (by omega)
      have : n < 2 ^ w := by omega
      exact_mod_cast this
    rw [Int.bmod_pos]
    · exact hmod
    · rw [hmod]
      have : n < (2 ^ w + 1) / 2 := by omega
      exact_mod_cast this

theorem first_rank_append_of_mem (pre s : List Int) (x : Int) (hx : x ∈ pre) :
    first_rank (pre ++ s) x = first_rank pre x := by
  unfold first_rank
  congr 1
  ext y
  simp only [Finset.mem_filter, List.mem_toFinset, List.mem_append,
    List.indexOf_append_of_mem hx]
  constructor
  · rintro ⟨_, hlt⟩
    by_cases hy : y ∈ pre
    · rw [List.indexOf_append_of_mem hy] at hlt
      exact ⟨hy, hlt⟩
    · rw [List.indexOf_append_of_not_mem hy] at hlt
      have := List.indexOf_lt_length.mpr hx
      omega
  · rintro ⟨hy, hlt⟩
    rw [List.indexOf_append_of_mem hy]
    exact ⟨Or.inl hy, hlt⟩

theorem first_rank_new (pre s : List Int) (v : Int) (hv : v ∉ pre) :
    first_rank (pre ++ v :: s) v = pre.toFinset.card := by
  unfold first_rank
  congr 1
  ext y
  simp only [Finset.mem_filter, List.mem_toFinset, List.mem_append,
    List.indexOf_append_of_not_mem hv, List.indexOf_cons_self, Nat.add_zero]
  constructor
  · rintro ⟨_, hlt⟩
    exact List.indexOf_lt_length.mp (by
      by_cases hy : y ∈ pre
      · exact List.indexOf_lt_length.mpr hy
      · rw [List.indexOf_append_of_not_mem hy] at hlt
        omega)
  · intro hy
    rw [List.indexOf_append_of_mem hy]
    exact ⟨Or.inl hy, List.indexOf_lt_length.mpr hy⟩

theorem first_rank_lt_card (l : List Int) (x : Int) (hx : x ∈ l) :
    first_rank l x < l.toFinset.card := by
  unfold first_rank
  apply Finset.card_lt_card
  rw [Finset.ssubset_iff_of_subset (Finset.filter_subset _ _)]
  exact ⟨x, List.mem_toFinset.mpr hx, by simp⟩

theorem first_rank_lt_of_indexOf_lt (l : List Int) (x y : Int) (hx : x ∈ l)
    (h : l.indexOf x < l.indexOf y) : first_rank l x < first_rank l y := by
  unfold first_rank
  apply Finset.card_lt_card
  rw [Finset.ssubset_iff_of_subset]
  · exact ⟨x, by simp [hx, h], by simp⟩
  · intro z hz
    simp only [Finset.mem_filter, List.mem_toFinset] at hz ⊢
    exact ⟨hz.1, lt_trans hz.2 h⟩

theorem first_rank_inj (l : List Int) (x y : Int) (hx : x ∈ l) (hy : y ∈ l)
    (h : first_rank l x = first_rank l y) : x = y := by
  rcases Nat.lt_trichotomy (l.indexOf x) (l.indexOf y) with h1 | h1 | h1
  · have := first_rank_lt_of_indexOf_lt l x y hx h1
    omega
  · exact (List.indexOf_inj hx hy).mp h1
  · have := first_rank_lt_of_indexOf_lt l y x hy h1
    omega

theorem first_rank_image (l : List Int) :
    l.toFinset.image (first_rank l) = Finset.range l.toFinset.card := by
  apply Finset.eq_of_subset_of_card_le
  · intro n hn
    obtain ⟨x, hx, rfl⟩ := Finset.mem_image.mp hn
    exact Finset.mem_range.mpr (first_rank_lt_card l x (List.mem_toFinset.mp hx))
  · rw [Finset.card_range, Finset.card_image_of_injOn]
    intro x hx y hy hxy
    exact first_rank_inj l x y (List.mem_toFinset.mp hx) (List.mem_toFinset.mp hy) hxy

/-! ## `vector_continuous_map` -/

theorem to_value_half (w : Nat) (hw : 0 < w) :
    to_value w (2 ^ (w - 1)) = -(2 ^ (w - 1) : Int) := by
  unfold to_value
  have hpos : 0 < 2 ^ (w - 1) := Nat.two_pow_pos _
  have h2 : 2 ^ w = 2 * 2 ^ (w - 1) := by
    conv_lhs => rw [show w = (w - 1) + 1 by omega]
    rw [pow_succ]
    ring
  have hmod : (((2 ^ (w - 1) : Nat) : Int) % ((2 ^ w : Nat) : Int))
      = ((2 ^ (w - 1) : Nat) : Int) := by
    apply Int.emod_eq_of_lt (by omega)
    have : 2 ^ (w - 1) < 2 ^ w := by omega
    exact_mod_cast this
  rw [Int.bmod_neg]
  · rw [hmod, h2]
    push_cast
    ring
  · rw [hmod]
    have : (2 ^ w + 1) / 2 ≤ 2 ^ (w - 1) := by omega
    exact_mod_cast this

theorem vector_continuous_map_loop_spec (w : Nat) (vs pre : List Int)
    (map : List (Int × Nat))
    (hmap : ∀ x, map.lookup x = if x ∈ pre then some (first_rank pre x) else none)
    (hsize : map.length = pre.toFinset.card) :
    vector_continuous_map_loop w vs map
      = vs.map (fun x => to_value w (first_rank (pre ++ vs) x)) := by
  induction vs generalizing pre map with
  | nil => rfl
  | cons v vs ih =>
    have happ : (pre ++ [v]) ++ vs = pre ++ v :: vs := by simp
    unfold vector_continuous_map_loop
    by_cases hv : v ∈ pre
    · have hlook : map.lookup v = some (first_rank pre v) := by rw [hmap v, if_pos hv]
      simp only [hlook, List.map_cons]
      rw [first_rank_append_of_mem pre (v :: vs) v hv]
      congr 1
      rw [ih (pre ++ [v]) map ?_ ?_, happ]
      · intro x
        rw [hmap x]
        by_cases hx : x ∈ pre
        · simp [hx, first_rank_append_of_mem pre [v] x hx]
        · have hxv : x ≠ v := fun e => hx (e ▸ hv)
          simp [hx, hxv]
      · rw [hsize]
        congr 1
        ext y
        simp only [List.mem_toFinset, List.mem_append, List.mem_singleton]
        constructor
        · exact fun h => Or.inl h
        · rintro (h | h)
          · exact h
          · exact h ▸ hv
    · have hlook : map.lookup v = none := by rw [hmap v, if_neg hv]
      simp only [hlook, List.map_cons]
      rw [hsize, first_rank_new pre vs v hv]
      congr 1
      rw [ih (pre ++ [v]) ((v, pre.toFinset.card) :: map) ?_ ?_, happ]
      · intro x
        rw [List.lookup_cons]
        by_cases hxv : x = v
        · subst hxv
          simp [first_rank_new pre [] x hv]
        · have hbeq : (x == v) = false := by simpa using hxv
          rw [hbeq, hmap x]
          by_cases hx : x ∈ pre
          · simp [hx, first_rank_append_of_mem pre [v] x hx]
          · simp [hx, hxv]
      · rw [List.length_cons, hsize, List.toFinset_append, Finset.card_union_of_disjoint]
        · simp
        · simp [hv]

theorem vector_continuous_map_to_value (w : Nat) (vals : List Int) :
    vector_continuous_map w vals = vals.map (fun x => to_value w (first_rank vals x)) := by
  have h := vector_continuous_map_loop_spec w vals [] [] (by simp) (by simp)
  simpa [vector_continuous_map] using h

theorem vector_continuous_map_eq (w : Nat) (vals : List Int)
    (hk : vals.toFinset.card ≤ 2 ^ (w - 1)) :
    vector_continuous_map w vals = vals.map (fun x => (first_rank vals x : Int)) := by
  rw [vector_continuous_map_to_value]
  apply List.map_congr_left
  intro x hx
  have := first_rank_lt_card vals x hx
  exact to_value_of_lt w _ (by omega)

theorem vector_continuous_map_neg_of_card_gt (w : Nat) (vals : List Int) (hw : 0 < w)
    (hk : 2 ^ (w - 1) < vals.toFinset.card) :
    -(2 ^ (w - 1) : Int) ∈ vector_continuous_map w vals := by
  have hn : 2 ^ (w - 1) ∈ Finset.range vals.toFinset.card := Finset.mem_range.mpr hk
  rw [← first_rank_image vals] at hn
  obtain ⟨x, hx, hxz⟩ := Finset.mem_image.mp hn
  rw [vector_continuous_map_to_value, List.mem_map]
  exact ⟨x, List.mem_toFinset.mp hx, by rw [hxz, to_value_half w hw]⟩

theorem nonpositive_values_card (w : Nat) :
    (nonpositive_values w).toFinset.card = 2 ^ (w - 1) + 1 := by
  unfold nonpositive_values
  rw [List.toFinset_card_of_nodup, List.length_map, List.length_range]
  apply List.Nodup.map _ (List.nodup_range _)
  intro a b h
  have : (a : Int) = b := by
    simp only at h
    linarith
  exact_mod_cast this

theorem nonpositive_values_range (w : Nat) :
    ∀ v ∈ nonpositive_values w, -(2 ^ (w - 1) : Int) ≤ v ∧ v ≤ 0 := by
  intro v hv
  unfold nonpositive_values at hv
  obtain ⟨n, hn, rfl⟩ := List.mem_map.mp hv
  have hn1 : n < 2 ^ (w - 1) + 1 := List.mem_range.mp hn
  have hn2 : (n : Int) ≤ 2 ^ (w - 1) := by exact_mod_cast Nat.lt_succ_iff.mp hn1
  constructor
  · have : (0 : Int) ≤ n := by positivity
    linarith
  · linarith

/-- C17, as stated, fails for the arrays with more than `2^(w-1)` distinct
values, `w` the width of `Value`: the label `2^(w-1)`, a `size_t`, is stored
in the array as the `Value` `-2^(w-1)`.  For `Value = int32_t` the array of
the `2^31 + 1` nonpositive values, `-2^31` up to 0, all distinct, receives the
entry `-2^31`, which is not among `0, ..., 2^31`.  With 3-bit values the run
can be written out: `[-4, -3, -2, -1, 0]` becomes `[0, 1, 2, 3, -4]`. -/
theorem vector_continuous_map_wraps :
    (∀ v ∈ nonpositive_values 32, -(2 ^ 31 : Int) ≤ v ∧ v ≤ 0) ∧
    (nonpositive_values 32).toFinset.card = 2 ^ 31 + 1 ∧
    -(2 ^ 31 : Int) ∈ vector_continuous_map 32 (nonpositive_values 32) ∧
    vector_continuous_map 3 [-4, -3, -2, -1, 0] = [0, 1, 2, 3, -4] := by
  refine ⟨nonpositive_values_range 32, nonpositive_values_card 32, ?_, by decide⟩
  exact vector_continuous_map_neg_of_card_gt 32 (nonpositive_values 32) (by omega)
    (by rw [nonpositive_values_card]; omega)

/-- C17, amended: `vector_continuous_map` relabels an array with `k` distinct
values, `k` at most `2^(w-1)` for `w` the width of `Value`, to a compact
0-based range.  Entry `i` of the output is the number of distinct values whose
first occurrence precedes the first occurrence of `vals[i]`; two entries of
the output are equal exactly when the entries of the input are; the values of
the output are exactly `0, ..., k - 1`. -/
theorem vector_continuous_map_spec (w : Nat) (vals : List Int)
    (hk : vals.toFinset.card ≤ 2 ^ (w - 1)) :
    vector_continuous_map w vals = vals.map (fun x => (first_rank vals x : Int)) ∧
    (∀ i j, i < vals.length → j < vals.length →
      ((vector_continuous_map w vals)[i]? = (vector_continuous_map w vals)[j]? ↔
        vals[i]? = vals[j]?)) ∧
    (∀ z : Int, z ∈ vector_continuous_map w vals ↔ 0 ≤ z ∧ z < vals.toFinset.card) := by
  have heq := vector_continuous_map_eq w vals hk
  refine ⟨heq, ?_, ?_⟩
  · intro i j hi hj
    rw [heq]
    simp only [List.getElem?_map, List.getElem?_eq_getElem hi, List.getElem?_eq_getElem hj,
      Option.map_some', Option.some.injEq]
    constructor
    · intro h
      exact first_rank_inj vals _ _ (List.getElem_mem _) (List.getElem_mem _)
        (by exact_mod_cast h)
    · intro h
      rw [h]
  · intro z
    rw [heq]
    simp only [List.mem_map]
    constructor
    · rintro ⟨x, hx, rfl⟩
      exact ⟨by positivity, by exact_mod_cast first_rank_lt_card vals x hx⟩
    · rintro ⟨h0, hz⟩
      have hn : z.toNat ∈ Finset.range vals.toFinset.card := by
        rw [Finset.mem_range]
        omega
      rw [← first_rank_image vals] at hn
      obtain ⟨x, hx, hxz⟩ := Finset.mem_image.mp hn
      exact ⟨x, List.mem_toFinset.mp hx, by rw [hxz]; exact Int.toNat_of_nonneg h0⟩

/-- The amended C17 on the array `[7, 3, 7, -2, 3, 9]` of 32-bit values, which
has 4 distinct values and becomes `[0, 1, 0, 2, 1, 3]`. -/
theorem vector_continuous_map_spec_witness :
    vector_continuous_map 32 [7, 3, 7, -2, 3, 9]
      = [7, 3, 7, -2, 3, 9].map (fun x => (first_rank [7, 3, 7, -2, 3, 9] x : Int)) ∧
    vector_continuous_map 32 [7, 3, 7, -2, 3, 9] = [0, 1, 0, 2, 1, 3] :=
  ⟨(vector_continuous_map_spec 32 [7, 3, 7, -2, 3, 9] (by decide)).1, by decide⟩

/-! ## `vector_rmap` -/

theorem vector_rmap_loop_spec (w : Nat) (vs : List Int) (i0 : Nat) (map : List Int)
    (hnd : vs.Nodup) (hval : ∀ v ∈ vs, 0 ≤ v ∧ v.toNat < map.length) :
    ∃ map1, vector_rmap_loop w vs i0 map = some map1 ∧ map1.length = map.length ∧
      (∀ k, ∀ hk : k < vs.length, map1[(vs[k]).toNat]? = some (to_value w (i0 + k))) ∧
      (∀ j : Nat, (j : Int) ∉ vs → map1[j]? = map[j]?) := by
  induction vs generalizing i0 map with
  | nil => exact ⟨map, rfl, rfl, fun k hk => absurd hk (Nat.not_lt_zero k), fun _ _ => rfl⟩
  | cons v vs ih =>
    have hv := hval v (List.mem_cons_self _ _)
    have hvn : v ∉ vs := (List.nodup_cons.mp hnd).1
    have hcast : ((v.toNat : Nat) : Int) = v := Int.toNat_of_nonneg hv.1
    obtain ⟨map1, h1, h2, h3, h4⟩ := ih (i0 + 1) (map.set v.toNat (to_value w i0))
      (List.nodup_cons.mp hnd).2
      (fun u hu => by
        rw [List.length_set]
        exact hval u (List.mem_cons_of_mem _ hu))
    refine ⟨map1, ?_, ?_, ?_, ?_⟩
    · unfold vector_rmap_loop
      rw [if_pos hv]
      exact h1
    · rw [h2, List.length_set]
    · intro k hk
      cases k with
      | zero =>
        simp only [List.getElem_cons_zero, Nat.add_zero]
        rw [h4 v.toNat (by rw [hcast]; exact hvn)]
        exact List.getElem?_set_self hv.2
      | succ k =>
        simp only [List.getElem_cons_succ]
        rw [h3 k (by simpa using hk)]
        congr 2
        omega
    · intro j hj
      have hjv : (j : Int) ≠ v := fun e => hj (e ▸ List.mem_cons_self _ _)
      have hjs : (j : Int) ∉ vs := fun e => hj (List.mem_cons_of_mem _ e)
      rw [h4 j hjs]
      apply List.getElem?_set_ne
      intro e
      apply hjv
      rw [← e, hcast]

/-- C18: for an array `vals` (shorter than `2^(w-1)` entries) whose entries are
pairwise distinct and valid indices of `map`, `vector_rmap` returns normally,
leaves `vals` unchanged and the length of `map` too, and afterwards
`map[vals[i]] = i` for every `i` while every entry of `map` at an index that
does not occur in `vals` is unchanged. -/
theorem vector_rmap_spec (w : Nat) (vals map : List Int)
    (hlen : vals.length ≤ 2 ^ (w - 1)) (hnd : vals.Nodup)
    (hval : ∀ v ∈ vals, 0 ≤ v ∧ v.toNat < map.length) :
    ∃ map1, vector_rmap w vals map = some (vals, map1) ∧ map1.length = map.length ∧
      (∀ i, ∀ hi : i < vals.length, map1[(vals[i]).toNat]? = some (i : Int)) ∧
      (∀ j : Nat, (j : Int) ∉ vals → map1[j]? = map[j]?) := by
  obtain ⟨map1, h1, h2, h3, h4⟩ := vector_rmap_loop_spec w vals 0 map hnd hval
  refine ⟨map1, by simp [vector_rmap, h1], h2, ?_, h4⟩
  intro i hi
  rw [h3 i hi, Nat.zero_add, to_value_of_lt w i (by omega)]

/-- The statement of C18 on `vals = [2, 0, 4]` and a `map` of five entries 9:
`map` becomes `[1, 9, 0, 9, 2]`. -/
theorem vector_rmap_spec_witness :
    ∃ map1, vector_rmap 32 [2, 0, 4] [9, 9, 9, 9, 9] = some ([2, 0, 4], map1) ∧
      map1.length = [9, 9, 9, 9, 9].length ∧
      (∀ i, ∀ hi : i < [2, 0, 4].length,
        map1[(([2, 0, 4] : List Int)[i]).toNat]? = some (i : Int)) ∧
      (∀ j : Nat, (j : Int) ∉ ([2, 0, 4] : List Int) →
        map1[j]? = ([9, 9, 9, 9, 9] : List Int)[j]?) :=
  vector_rmap_spec 32 [2, 0, 4] [9, 9, 9, 9, 9] (by decide) (by decide) (by decide)

/-! ## `vector_map` -/

theorem vector_map_loop_spec (w : Nat) (vs pre : List Int) (pos : Nat) (map : List Int)
    (hk : (pre ++ vs).toFinset.card ≤ 2 ^ (w - 1))
    (hval : ∀ v ∈ vs, 0 ≤ v ∧ v.toNat < map.length)
    (hpos : pos = pre.toFinset.card)
    (hmap : ∀ j, j < map.length →
      map[j]? = some (if (j : Int) ∈ pre then (first_rank pre j : Int) else -1)) :
    ∃ map1, vector_map_loop w vs pos map
        = some (vs.map (fun x => (first_rank (pre ++ vs) x : Int)), map1) ∧
      map1.length = map.length ∧
      ∀ j, j < map.length →
        map1[j]? = some (if (j : Int) ∈ pre ++ vs
          then (first_rank (pre ++ vs) j : Int) else -1) := by
  induction vs generalizing pre pos map with
  | nil =>
    refine ⟨map, rfl, rfl, ?_⟩
    simpa using hmap
  | cons v vs ih =>
    have hv := hval v (List.mem_cons_self _ _)
    have hcast : ((v.toNat : Nat) : Int) = v := Int.toNat_of_nonneg hv.1
    have happ : (pre ++ [v]) ++ vs = pre ++ v :: vs := by simp
    have hlen2 : ((pre ++ [v]) ++ vs).toFinset.card ≤ 2 ^ (w - 1) := by
      rw [happ]
      exact hk
    have hget : map[v.toNat]? = some (if v ∈ pre then (first_rank pre v : Int) else -1) := by
      have := hmap v.toNat hv.2
      rwa [hcast] at this
    have hgetD : map.getD v.toNat 0 = (if v ∈ pre then (first_rank pre v : Int) else -1) := by
      rw [List.getD_eq_getElem?_getD, hget]
      rfl
    unfold vector_map_loop
    rw [if_pos hv]
    by_cases hvp : v ∈ pre
    · have hfresh : decide (map.getD v.toNat 0 = -1) = false := by
        rw [hgetD, if_pos hvp]
        simp only [decide_eq_false_iff_not]
        have : (0 : Int) ≤ (first_rank pre v : Int) := by positivity
        omega
      obtain ⟨map1, h1, h2, h3⟩ := ih (pre ++ [v]) pos map hlen2
        (fun u hu => hval u (List.mem_cons_of_mem _ hu))
        (by
          rw [hpos]
          congr 1
          ext y
          simp only [List.mem_toFinset, List.mem_append, List.mem_singleton]
          constructor
          · exact fun h => Or.inl h
          · rintro (h | h)
            · exact h
            · exact h ▸ hvp)
        (by
          intro j hj
          rw [hmap j hj]
          by_cases hjp : (j : Int) ∈ pre
          · simp [hjp, first_rank_append_of_mem pre [v] j hjp]
          · have hjv : (j : Int) ≠ v := fun e => hjp (e ▸ hvp)
            simp [hjp, hjv])
      refine ⟨map1, ?_, h2, ?_⟩
      · simp only [hfresh]
        simp only [Bool.false_eq_true, if_false, h1, List.map_cons, happ]
        rw [hgetD, if_pos hvp, first_rank_append_of_mem pre (v :: vs) v hvp]
      · intro j hj
        rw [h3 j hj, happ]
    · have hfresh : decide (map.getD v.toNat 0 = -1) = true := by
        rw [hgetD, if_neg hvp]
        rfl
      have hposlt : pos < 2 ^ (w - 1) := by
        have h1 := first_rank_lt_card (pre ++ v :: vs) v (by simp)
        rw [first_rank_new pre vs v hvp] at h1
        omega
      obtain ⟨map1, h1, h2, h3⟩ := ih (pre ++ [v]) (pos + 1)
        (map.set v.toNat (to_value w pos)) hlen2
        (fun u hu => by
          rw [List.length_set]
          exact hval u (List.mem_cons_of_mem _ hu))
        (by
          rw [hpos, List.toFinset_append, Finset.card_union_of_disjoint]
          · simp
          · simp [hvp])
        (by
          intro j hj
          rw [List.length_set] at hj
          by_cases hjv : j = v.toNat
          · subst hjv
            rw [List.getElem?_set_self hv.2, hcast, to_value_of_lt w pos hposlt, hpos]
            simp [first_rank_new pre [] v hvp]
          · have hjv2 : (j : Int) ≠ v := by
              intro e
              apply hjv
              rw [← e]
              rfl
            rw [List.getElem?_set_ne (fun e => hjv e.symm), hmap j hj]
            by_cases hjp : (j : Int) ∈ pre
            · simp [hjp, first_rank_append_of_mem pre [v] j hjp]
            · simp [hjp, hjv2])
      refine ⟨map1, ?_, ?_, ?_⟩
      · simp only [hfresh]
        simp only [if_true, h1, List.map_cons, happ]
        rw [List.getD_eq_getElem?_getD, List.getElem?_set_self hv.2,
          to_value_of_lt w pos hposlt, hpos, first_rank_new pre vs v hvp]
        rfl
      · rw [h2, List.length_set]
      · intro j hj
        rw [h3 j (by rw [List.length_set]; exact hj), happ]

theorem card_le_of_values (w : Nat) (vals : List Int)
    (hbits : ∀ v ∈ vals, 0 ≤ v ∧ v < 2 ^ (w - 1)) : vals.toFinset.card ≤ 2 ^ (w - 1) := by
  have h := Finset.card_le_card_of_injOn (s := vals.toFinset)
    (t := Finset.range (2 ^ (w - 1))) Int.toNat
    (by
      intro a ha
      have hb := hbits a (List.mem_toFinset.mp ha)
      rw [Finset.mem_range]
      have : ((a.toNat : Nat) : Int) < ((2 ^ (w - 1) : Nat) : Int) := by
        rw [Int.toNat_of_nonneg hb.1]
        exact_mod_cast hb.2
      exact_mod_cast this)
    (by
      intro a ha b hb hab
      have h1 := (hbits a (List.mem_toFinset.mp ha)).1
      have h2 := (hbits b (List.mem_toFinset.mp hb)).1
      have e1 := Int.toNat_of_nonneg h1
      have e2 := Int.toNat_of_nonneg h2
      rw [← e1, ← e2, hab])
  simpa using h

/-- C20: for `vals` whose entries, values of the `w`-bit type `Value`, are
valid indices of `map`, and a `map` whose entries are all `-1`, `vector_map`
returns normally and leaves in `vals` what `vector_continuous_map` produces on
the same `vals`; afterwards `map[x]` is the compact label of `x` (the number
of distinct values first met before `x`) for each `x` occurring in `vals`, and
`-1` elsewhere.  The arrays may be of any length. -/
theorem vector_map_spec (w : Nat) (vals map : List Int)
    (hbits : ∀ v ∈ vals, -(2 ^ (w - 1) : Int) ≤ v ∧ v < 2 ^ (w - 1))
    (hval : ∀ v ∈ vals, 0 ≤ v ∧ v.toNat < map.length)
    (hinit : ∀ x ∈ map, x = -1) :
    ∃ map1, vector_map w vals map = some (vector_continuous_map w vals, map1) ∧
      map1.length = map.length ∧
      ∀ j, j < map.length →
        map1[j]? = some (if (j : Int) ∈ vals then (first_rank vals j : Int) else -1) := by
  have hk : vals.toFinset.card ≤ 2 ^ (w - 1) :=
    card_le_of_values w vals (fun v hv => ⟨(hval v hv).1, (hbits v hv).2⟩)
  obtain ⟨map1, h1, h2, h3⟩ := vector_map_loop_spec w vals [] 0 map
    (by simpa using hk) hval (by simp)
    (by
      intro j hj
      rw [List.getElem?_eq_getElem hj]
      simp [hinit _ (List.getElem_mem hj)])
  refine ⟨map1, ?_, h2, ?_⟩
  · rw [vector_continuous_map_eq w vals hk]
    simpa [vector_map] using h1
  · simpa using h3

/-- The statement of C20 on `vals = [2, 0, 2, 4, 0]` and a `map` of five
entries `-1`: `vals` becomes `[0, 1, 0, 2, 1]`, as with
`vector_continuous_map`, and `map` becomes `[1, -1, 0, -1, 2]`; and with 3-bit
values on `vals = [1, 0, 1, 0, 1, 0]`, an array longer than `2^(3-1)`. -/
theorem vector_map_spec_witness :
    (∃ map1, vector_map 32 [2, 0, 2, 4, 0] [-1, -1, -1, -1, -1]
        = some (vector_continuous_map 32 [2, 0, 2, 4, 0], map1) ∧
      map1.length = [-1, -1, -1, -1, -1].length ∧
      ∀ j, j < [-1, -1, -1, -1, -1].length →
        map1[j]? = some (if (j : Int) ∈ ([2, 0, 2, 4, 0] : List Int)
          then (first_rank [2, 0, 2, 4, 0] j : Int) else -1)) ∧
    vector_map 32 [2, 0, 2, 4, 0] [-1, -1, -1, -1, -1]
      = some ([0, 1, 0, 2, 1], [1, -1, 0, -1, 2]) ∧
    (∃ map1, vector_map 3 [1, 0, 1, 0, 1, 0] [-1, -1]
        = some (vector_continuous_map 3 [1, 0, 1, 0, 1, 0], map1) ∧
      map1.length = [-1, -1].length ∧
      ∀ j, j < [-1, -1].length →
        map1[j]? = some (if (j : Int) ∈ ([1, 0, 1, 0, 1, 0] : List Int)
          then (first_rank [1, 0, 1, 0, 1, 0] j : Int) else -1)) ∧
    vector_map 3 [1, 0, 1, 0, 1, 0] [-1, -1] = some ([0, 1, 0, 1, 0, 1], [1, 0]) :=
  ⟨vector_map_spec 32 [2, 0, 2, 4, 0] [-1, -1, -1, -1, -1] (by decide) (by decide)
    (by decide), by decide,
   vector_map_spec 3 [1, 0, 1, 0, 1, 0] [-1, -1] (by decide) (by decide) (by decide),
   by decide⟩

/-! ## Proposals and constraint classes -/

/-- C22: in the MCMC and in the multicanonical state alike, for every vertex
`v` and whatever block `sample_block` returns, the label `s` returned by
`move_proposal` has `bclabel[s] = bclabel[b[v]]`, and `s` is `b[v]` or the
block returned by `sample_block`. -/
theorem move_proposal_same_bclabel {σ G : Type} (B : BlockState σ G) (P : BlockParams)
    (st : σ) (v : Nat) (rng : G) :
    (B.bclabel st (MCMCBlockState.move_proposal B P st v rng).1 = B.bclabel st (B.b st v) ∧
      ((MCMCBlockState.move_proposal B P st v rng).1 = B.b st v ∨
        (MCMCBlockState.move_proposal B P st v rng).1
          = (B.sample_block st v P.c P.block_list rng).1)) ∧
    (B.bclabel st (MulticanonicalBlockState.move_proposal B P st v rng).1
        = B.bclabel st (B.b st v) ∧
      ((MulticanonicalBlockState.move_proposal B P st v rng).1 = B.b st v ∨
        (MulticanonicalBlockState.move_proposal B P st v rng).1
          = (B.sample_block st v P.c P.block_list rng).1)) := by
  constructor
  · simp only [MCMCBlockState.move_proposal]
    split_ifs with h1 h2
    · exact ⟨rfl, Or.inl rfl⟩
    · exact ⟨rfl, Or.inl rfl⟩
    · exact ⟨not_not.mp h2, Or.inr rfl⟩
  · simp only [MulticanonicalBlockState.move_proposal]
    split_ifs with h1 h2
    · exact ⟨rfl, Or.inl rfl⟩
    · exact ⟨rfl, Or.inl rfl⟩
    · exact ⟨not_not.mp h1, Or.inr rfl⟩

/-! ## `collect_edge_marginals` -/

theorem collect_edge_marginals_getElem? {α : Type} (zero : α) (incr : α → α) (B : Nat)
    (b : Nat → Int) (edges : List (Nat × Nat)) (p out : List (List α))
    (h : collect_edge_marginals zero incr B b edges p = some out)
    (i : Nat) (e : Nat × Nat) (pv : List α) (he : edges[i]? = some e) (hp : p[i]? = some pv) :
    ∃ pv1, collect_edge_marginals_visit zero incr B b e.1 e.2 pv = some pv1 ∧
      out[i]? = some pv1 := by
  induction edges generalizing p out i with
  | nil => simp at he
  | cons e0 edges ih =>
    cases p with
    | nil => simp at hp
    | cons pv0 p =>
      unfold collect_edge_marginals at h
      cases hv : collect_edge_marginals_visit zero incr B b e0.1 e0.2 pv0 with
      | none => simp [hv] at h
      | some pv1 =>
        cases hr : collect_edge_marginals zero incr B b edges p with
        | none => simp [hv, hr] at h
        | some rest =>
          simp only [hv, hr, Option.some.injEq] at h
          subst h
          cases i with
          | zero =>
            simp only [List.getElem?_cons_zero, Option.some.injEq] at he hp
            subst he hp
            exact ⟨pv1, hv, by simp⟩
          | succ i =>
            simp only [List.getElem?_cons_succ] at he hp ⊢
            exact ih p rest hr i he hp

end GraphTool
